import Mathlib

/-!
Verification development for the Owlanter/Pleasanter script-synchronization
engine.  The TypeScript sources are shallowly embedded: JavaScript strings are
modelled as `List Char`, JavaScript objects used as string-keyed dictionaries
as association lists, and the effectful orchestration (pull/push/incremental
push) as pure functions from their inputs to the list of filesystem / remote
actions they perform, in program order.
-/

/-- JavaScript strings are modelled as lists of characters. -/
abbrev Str := List Char

/-- Whitespace test used by `String.prototype.trim` and the `\s` regex class;
modelled for the ASCII whitespace characters that occur in script files. -/
def isWsChar (c : Char) : Bool :=
  c = ' ' || c = '\t' || c = '\n' || c = '\r'

/-- `content.split(sep)` for a one-character separator. -/
def splitOnC (c : Char) : Str → List Str
  | [] => [[]]
  | a :: rest =>
    if a = c then [] :: splitOnC c rest
    else
      match splitOnC c rest with
      | [] => [[a]]
      | x :: xs => (a :: x) :: xs

/-- `parts.join(sep)` for a one-character separator. -/
def intercalateC (c : Char) : List Str → Str
  | [] => []
  | [x] => x
  | x :: xs => x ++ c :: intercalateC c xs

/-- `s.startsWith(pre)`. -/
def strStartsWith : Str → Str → Bool
  | _, [] => true
  | [], _ :: _ => false
  | c :: cs, p :: ps => c = p && strStartsWith cs ps

/-- `s.endsWith(suffix)`. -/
def strEndsWith (s suffix : Str) : Bool :=
  strStartsWith s.reverse suffix.reverse

/-- Left part of `String.prototype.trim`. -/
def trimLeftStr (s : Str) : Str := s.dropWhile isWsChar

/-- Right part of `String.prototype.trim`. -/
def trimRightStr (s : Str) : Str := (s.reverse.dropWhile isWsChar).reverse

/-- `s.trim()`. -/
def trimStr (s : Str) : Str := trimLeftStr (trimRightStr s)

/-- `s.toLowerCase()`, modelled for ASCII. -/
def toLowerStr (s : Str) : Str := s.map Char.toLower

/-- JavaScript runtime values that can appear in a parsed metadata object or
be fed to the numeric coercion helpers. -/
inductive JsValue where
  | bool (b : Bool)
  | num (n : Int)
  | nan
  | str (s : Str)
  | undef
  | null
  deriving DecidableEq, Repr

/-- Numeric value of a string of decimal digits. -/
def digitsVal (s : Str) : Int :=
  s.foldl (fun a c => a * 10 + (c.toNat - '0'.toNat : Nat)) 0

/-- `Number(string)` on the strings this codebase produces, as `some n` for a
finite integer result and `none` for `NaN`.  The empty (or all-whitespace)
string coerces to `0`; optionally signed decimal-digit strings coerce to the
corresponding integer.  Other numeric syntaxes of full JavaScript (fractions,
exponents, hex) do not occur in the headers or filenames this system writes
and are mapped to `none`. -/
def jsNumberOpt (s : Str) : Option Int :=
  let t := trimStr s
  if t = [] then some 0
  else if t.all Char.isDigit then some (digitsVal t)
  else if t.headD ' ' = '-' ∧ t.tail ≠ [] ∧ t.tail.all Char.isDigit then
    some (-(digitsVal t.tail))
  else none

/-- Shorthand to write `Str` literals. -/
def strL (s : String) : Str := s.toList

/-- `MetadataParser.parseValue`: `"true"`/`"false"` become booleans, strings
that coerce to a (finite) number become numbers, everything else stays a
string. -/
def parseValue (value : Str) : JsValue :=
  if value = strL "true" then .bool true
  else if value = strL "false" then .bool false
  else
    match jsNumberOpt value with
    | some n => .num n
    | none => .str value

/-- The literal comment marker of the header convention. -/
def plsMark : Str := strL "// @pleasanter-"

/-- One attempt of the header regex `\/\/ @pleasanter-([^:]+):\s*(.+)` at the
start of `s`: the key is the non-empty run up to the first colon, and the
match succeeds when at least one character follows that colon.  The returned
value is trimmed, exactly as the caller does with `match[2].trim()` (the
regex' `\s*` only strips part of the leading whitespace the final `trim`
would remove anyway). -/
def matchHeaderAt (s : Str) : Option (Str × Str) :=
  if strStartsWith s plsMark then
    let rest := s.drop plsMark.length
    let key := rest.takeWhile (fun c => c ≠ ':')
    let fromColon := rest.dropWhile (fun c => c ≠ ':')
    if key ≠ [] ∧ fromColon ≠ [] ∧ fromColon.tail ≠ [] then
      some (key, trimStr fromColon.tail)
    else none
  else none

/-- Unanchored search of the header regex, leftmost match first, as
`String.prototype.match` performs it. -/
def searchHeader : Str → Option (Str × Str)
  | [] => none
  | c :: rest =>
    match matchHeaderAt (c :: rest) with
    | some r => some r
    | none => searchHeader rest

/-- A parsed metadata object: a JavaScript object used as a string-keyed
dictionary, modelled as an insertion-ordered association list. -/
abbrev Meta := List (Str × JsValue)

/-- `obj[key] = value` on a string-keyed JavaScript object: replaces the
existing entry in place, else appends. -/
def assocSet {α : Type} : List (Str × α) → Str → α → List (Str × α)
  | [], k, v => [(k, v)]
  | p :: m, k, v => if p.1 = k then (k, v) :: m else p :: assocSet m k v

/-- `obj[key]` on a string-keyed JavaScript object. -/
def assocGet {α : Type} (m : List (Str × α)) (k : Str) : Option α :=
  (m.find? (fun p => decide (p.1 = k))).map (fun p => p.2)

/-- Loop state of `MetadataParser.parseFile`. -/
structure ParseState where
  metadata : Meta
  bodyLines : List Str
  inMetadata : Bool
  deriving Repr

/-- One iteration of the line loop of `MetadataParser.parseFile`. -/
def parseStep (st : ParseState) (line : Str) : ParseState :=
  let trimmed := trimStr line
  if st.inMetadata ∧ strStartsWith trimmed plsMark then
    match searchHeader trimmed with
    | some kv => { st with metadata := assocSet st.metadata kv.1 (parseValue kv.2) }
    | none => st
  else if trimmed = [] ∧ st.inMetadata then st
  else { st with inMetadata := false, bodyLines := st.bodyLines ++ [line] }

/-- `MetadataParser.parseFile` after the initial `content.split('\n')`. -/
def parseFileLines (lines : List Str) : Meta × Str :=
  let st := lines.foldl parseStep ⟨[], [], true⟩
  (st.metadata, trimStr (intercalateC '\n' st.bodyLines))

/-- `MetadataParser.parseFile`, taking the file's text (the filesystem read
is outside the model). -/
def parseFile (content : Str) : Meta × Str :=
  parseFileLines (splitOnC '\n' content)

/-- `ServerScript` record (api/types.ts together with the flag fields
`ScriptSynchronizer.normalizeServerScript` populates).  The TypeScript flag
fields have type `boolean | undefined`; every consumer reads them through
truthiness (`if (value)`, `?? false`, `Boolean(...)`), under which `undefined`
and `false` coincide, so they are modelled as `Bool` with default `false`. -/
structure ServerScript where
  Id : Option Int := none
  Title : Option Str := none
  Name : Option Str := none
  Body : Option Str := none
  ServerScriptWhenloadingSiteSettings : Bool := false
  ServerScriptWhenViewProcessing : Bool := false
  ServerScriptWhenloadingRecord : Bool := false
  ServerScriptBeforeFormula : Bool := false
  ServerScriptAfterFormula : Bool := false
  ServerScriptBeforeCreate : Bool := false
  ServerScriptAfterCreate : Bool := false
  ServerScriptBeforeUpdate : Bool := false
  ServerScriptAfterUpdate : Bool := false
  ServerScriptBeforeDelete : Bool := false
  ServerScriptAfterDelete : Bool := false
  ServerScriptBeforeBulkDelete : Bool := false
  ServerScriptAfterBulkDelete : Bool := false
  ServerScriptBeforeOpeningPage : Bool := false
  ServerScriptBeforeOpeningRow : Bool := false
  ServerScriptShared : Bool := false
  Functionalize : Bool := false
  TryCatch : Bool := false
  deriving DecidableEq, Repr

/-- Client `Script` record (api/types.ts), same `Bool` modelling of the
optional boolean flags as `ServerScript`. -/
structure Script where
  Id : Option Int := none
  Title : Option Str := none
  Body : Option Str := none
  Disabled : Bool := false
  ScriptAll : Bool := false
  ScriptNew : Bool := false
  ScriptEdit : Bool := false
  ScriptIndex : Bool := false
  deriving DecidableEq, Repr

/-- Decimal digit character (values ≥ 10 cannot arise from `n % 10`). -/
def digitChar (d : Nat) : Char :=
  if d = 0 then '0' else if d = 1 then '1' else if d = 2 then '2'
  else if d = 3 then '3' else if d = 4 then '4' else if d = 5 then '5'
  else if d = 6 then '6' else if d = 7 then '7' else if d = 8 then '8'
  else if d = 9 then '9' else '*'

/-- Fueled decimal rendering of a natural number (fuel keeps the recursion
structural so that terms reduce inside the kernel). -/
def natToStrAux : Nat → Nat → Str
  | 0, _ => []
  | fuel + 1, n =>
    if n < 10 then [digitChar n]
    else natToStrAux fuel (n / 10) ++ [digitChar (n % 10)]

/-- Template-literal rendering `${n}` of a non-negative number. -/
def natToStr (n : Nat) : Str := natToStrAux (n + 1) n

/-- Template-literal rendering `${n}` of an integer. -/
def intToStr (n : Int) : Str :=
  if n < 0 then '-' :: natToStr n.natAbs else natToStr n.natAbs

/-- Template-literal rendering `${x}` of a `number | undefined` value. -/
def renderOptInt : Option Int → Str
  | some n => intToStr n
  | none => strL "undefined"

/-- Template-literal rendering `${x}` of a `string | undefined` value. -/
def renderOptStr : Option Str → Str
  | some s => s
  | none => strL "undefined"

/-- Template-literal rendering `${b}` of a boolean. -/
def renderBool (b : Bool) : Str :=
  if b then strL "true" else strL "false"

/-- The `hooks` record of `MetadataParser.generateServerScriptMetadata`, in
source order: metadata key together with the flag value. -/
def serverHooks (script : ServerScript) : List (Str × Bool) :=
  [(strL "when-loading-site-settings", script.ServerScriptWhenloadingSiteSettings),
   (strL "when-view-processing", script.ServerScriptWhenViewProcessing),
   (strL "when-loading-record", script.ServerScriptWhenloadingRecord),
   (strL "before-formula", script.ServerScriptBeforeFormula),
   (strL "after-formula", script.ServerScriptAfterFormula),
   (strL "before-create", script.ServerScriptBeforeCreate),
   (strL "after-create", script.ServerScriptAfterCreate),
   (strL "before-update", script.ServerScriptBeforeUpdate),
   (strL "after-update", script.ServerScriptAfterUpdate),
   (strL "before-delete", script.ServerScriptBeforeDelete),
   (strL "after-delete", script.ServerScriptAfterDelete),
   (strL "before-bulk-delete", script.ServerScriptBeforeBulkDelete),
   (strL "after-bulk-delete", script.ServerScriptAfterBulkDelete),
   (strL "before-opening-page", script.ServerScriptBeforeOpeningPage),
   (strL "before-opening-row", script.ServerScriptBeforeOpeningRow),
   (strL "shared", script.ServerScriptShared)]

/-- The header lines `MetadataParser.generateServerScriptMetadata` emits:
id, title and name always, then one `: true` line per set hook flag
(false-valued flags are omitted; `Functionalize`/`TryCatch` are never
emitted). -/
def generateServerScriptMetadataLines (script : ServerScript) : List Str :=
  [strL "// @pleasanter-id: " ++ renderOptInt script.Id,
   strL "// @pleasanter-title: " ++ renderOptStr script.Title,
   strL "// @pleasanter-name: " ++ renderOptStr script.Name]
  ++ ((serverHooks script).filter (fun p => p.2)).map
      (fun p => plsMark ++ p.1 ++ strL ": true")

/-- `MetadataParser.generateServerScriptMetadata`. -/
def generateServerScriptMetadata (script : ServerScript) : Str :=
  intercalateC '\n' (generateServerScriptMetadataLines script)

/-- The text `MetadataParser.writeServerScriptFile` writes:
``${metadata}\n\n${script.Body}``. -/
def writeServerScriptFileContent (script : ServerScript) : Str :=
  generateServerScriptMetadata script ++ strL "\n\n" ++ renderOptStr script.Body

/-- The header lines of `MetadataParser.generateScriptMetadata` (client
variant: every flag is always emitted, with its boolean rendering). -/
def generateScriptMetadataLines (script : Script) : List Str :=
  [strL "// @pleasanter-id: " ++ renderOptInt script.Id,
   strL "// @pleasanter-title: " ++ renderOptStr script.Title,
   strL "// @pleasanter-all: " ++ renderBool script.ScriptAll,
   strL "// @pleasanter-new: " ++ renderBool script.ScriptNew,
   strL "// @pleasanter-edit: " ++ renderBool script.ScriptEdit,
   strL "// @pleasanter-index: " ++ renderBool script.ScriptIndex,
   strL "// @pleasanter-disabled: " ++ renderBool script.Disabled]

/-- `MetadataParser.generateScriptMetadata`. -/
def generateScriptMetadata (script : Script) : Str :=
  intercalateC '\n' (generateScriptMetadataLines script)

/-- The text `MetadataParser.writeScriptFile` writes. -/
def writeScriptFileContent (script : Script) : Str :=
  generateScriptMetadata script ++ strL "\n\n" ++ renderOptStr script.Body

/-- Character class `[\\/:*?"<>|]` of `sanitizeFileName`. -/
def badFileChar (c : Char) : Bool :=
  c = '\\' || c = '/' || c = ':' || c = '*' || c = '?' ||
  c = '"' || c = '<' || c = '>' || c = '|'

/-- `s.replace(/p+/g, rep)`: collapse every maximal run of characters
satisfying `p` into a single `rep`.  The boolean argument records whether the
previous character belonged to a run (keeps the recursion structural). -/
def collapseRuns (p : Char → Bool) (rep : Char) : Bool → Str → Str
  | _, [] => []
  | prev, c :: rest =>
    if p c then
      if prev then collapseRuns p rep true rest
      else rep :: collapseRuns p rep true rest
    else c :: collapseRuns p rep false rest

/-- `s.replace(/^t+|t+$/g, '')`: strip leading and trailing runs of `t`. -/
def trimCharEnds (t : Char) (s : Str) : Str :=
  ((s.dropWhile (fun c => c = t)).reverse.dropWhile (fun c => c = t)).reverse

/-- `sanitizeFileName` (script-sync.ts): path-hostile characters become `_`,
whitespace runs become `_`, `_` runs collapse, leading/trailing `_` stripped,
truncated to 60 characters, empty result replaced by `"script"`. -/
def sanitizeFileName (value : Str) : Str :=
  let s1 := value.map (fun c => if badFileChar c then '_' else c)
  let s2 := collapseRuns isWsChar '_' false s1
  let s3 := collapseRuns (fun c => c = '_') '_' false s2
  let s4 := trimCharEnds '_' s3
  let s5 := s4.take 60
  if s5 = [] then strL "script" else s5

/-- `${script.Id ?? 'new'}` (note `??`, so an id of `0` renders as `0`). -/
def idOrNew : Option Int → Str
  | some n => intToStr n
  | none => strL "new"

/-- The file name `writeServerScripts` chooses:
``${script.Id ?? 'new'}_${sanitizeFileName(script.Title ?? script.Name ?? 'server-script')}.js``. -/
def serverScriptFileName (script : ServerScript) : Str :=
  idOrNew script.Id ++ '_' ::
    sanitizeFileName ((script.Title <|> script.Name).getD (strL "server-script")) ++ strL ".js"

/-- The file name `writeClientScripts` chooses. -/
def clientScriptFileName (script : Script) : Str :=
  idOrNew script.Id ++ '_' ::
    sanitizeFileName (script.Title.getD (strL "client-script")) ++ strL ".js"

/-- A path segment that `path.normalize` passes through untouched: non-empty,
not `.` or `..`, and without a separator. -/
def plainSeg (s : Str) : Prop :=
  s ≠ [] ∧ s ≠ ['.'] ∧ s ≠ ['.', '.'] ∧ '/' ∉ s

instance (s : Str) : Decidable (plainSeg s) := by
  unfold plainSeg
  infer_instance

/-- Segment resolution of `path.normalize`: drop empty and `.` segments,
resolve `..` against the accumulated stack. -/
def resolveDots (acc : List Str) : List Str → List Str
  | [] => acc
  | seg :: rest =>
    if seg = [] ∨ seg = ['.'] then resolveDots acc rest
    else if seg = ['.', '.'] then resolveDots acc.dropLast rest
    else resolveDots (acc ++ [seg]) rest

/-- Node `path.normalize` for POSIX paths, modelled for the engine's use:
absolute workspace paths (`..` beyond the root and trailing-slash
preservation, which never arise here, are not distinguished). -/
def pnormalize (p : Str) : Str :=
  if strStartsWith p (strL "/") then
    '/' :: intercalateC '/' (resolveDots [] (splitOnC '/' p))
  else
    let segs := resolveDots [] (splitOnC '/' p)
    if segs = [] then strL "." else intercalateC '/' segs

/-- Node `path.join(a, b)`: the separator-joined parts, normalized. -/
def pjoin (a b : Str) : Str := pnormalize (a ++ '/' :: b)

/-- An absolute path written as `/` followed by `/`-joined plain segments. -/
def goodAbsPath (p : Str) : Prop :=
  ∃ segs : List Str, segs ≠ [] ∧ (∀ s ∈ segs, plainSeg s) ∧
    p = '/' :: intercalateC '/' segs

/-- Node `path.basename` (POSIX): last non-empty `/`-separated component. -/
def pbasename (p : Str) : Str :=
  ((splitOnC '/' p).filter (fun s => s ≠ [])).getLastD []

/-- Node `path.extname` of a basename: suffix from the last dot, empty when
there is no dot or the only dot starts the name. -/
def pextname (name : Str) : Str :=
  let pre := name.reverse.takeWhile (fun c => c ≠ '.')
  if pre.length = name.length then []
  else if pre.length + 1 = name.length then []
  else '.' :: pre.reverse

/-- Node `path.basename(p, ext)`: the basename with the suffix `ext` removed
when it ends with it (and is not `ext` itself). -/
def pbasenameExt (p : Str) (ext : Str) : Str :=
  let name := pbasename p
  if ext ≠ [] ∧ strEndsWith name ext = true ∧ name ≠ ext then
    name.take (name.length - ext.length)
  else name

/-- `Number(value)` on a runtime value; `none` is `NaN`. -/
def jsToNumber : JsValue → Option Int
  | .bool b => some (if b then 1 else 0)
  | .num n => some n
  | .nan => none
  | .str s => jsNumberOpt s
  | .undef => none
  | .null => some 0

/-- `toNumberOrUndefined` (script-sync.ts): `null`, `undefined` and `''`
become `undefined`; otherwise the finite numeric coercion, `undefined` when
it is not finite. -/
def toNumberOrUndefined (value : JsValue) : Option Int :=
  if value = .null ∨ value = .undef ∨ value = .str [] then none
  else jsToNumber value

/-- `toNumberOrNull` (script-sync.ts); identical content with a `null`
result modelled the same way. -/
def toNumberOrNull (value : JsValue) : Option Int :=
  if value = .null ∨ value = .undef ∨ value = .str [] then none
  else jsToNumber value

/-- `Boolean(value)`: JavaScript truthiness. -/
def jsTruthy : JsValue → Bool
  | .bool b => b
  | .num n => n ≠ 0
  | .nan => false
  | .str s => s ≠ []
  | .undef => false
  | .null => false

/-- Value of `metadataId ?? inferredId ?? script.Id` as a JavaScript runtime
value: the outer `Option` is presence (`undefined`), the inner is
finiteness (`NaN`). -/
def jsNumOfCandidate : Option (Option Int) → JsValue
  | none => .undef
  | some none => .nan
  | some (some n) => .num n

/-- Runtime content of a metadata value read through the TypeScript
`as string` cast (`metadata.title as string`): the cast does not convert, so
a non-string value flows through; it is collapsed to its string rendering at
this read, which is observationally equal for every later use (display,
file naming). -/
def jsDisplayStr : JsValue → Str
  | .str s => s
  | .bool b => renderBool b
  | .num n => intToStr n
  | .nan => strL "NaN"
  | .undef => strL "undefined"
  | .null => strL "null"

/-- `LocalServerScript` (script-sync.ts): `id: number | null` is
`Option Int`. -/
structure LocalServerScript where
  id : Option Int
  title : Str
  filePath : Str
  script : ServerScript
  deriving DecidableEq, Repr

/-- `LocalClientScript` (script-sync.ts). -/
structure LocalClientScript where
  id : Option Int
  title : Str
  filePath : Str
  script : Script
  deriving DecidableEq, Repr

/-- The `serverFlagMap` of `parseServerScript`: metadata key paired with the
field update it performs. -/
def serverFlagSetters : List (Str × (ServerScript → Bool → ServerScript)) :=
  [(strL "when-loading-site-settings", fun s b => { s with ServerScriptWhenloadingSiteSettings := b }),
   (strL "when-view-processing", fun s b => { s with ServerScriptWhenViewProcessing := b }),
   (strL "when-loading-record", fun s b => { s with ServerScriptWhenloadingRecord := b }),
   (strL "before-formula", fun s b => { s with ServerScriptBeforeFormula := b }),
   (strL "after-formula", fun s b => { s with ServerScriptAfterFormula := b }),
   (strL "before-create", fun s b => { s with ServerScriptBeforeCreate := b }),
   (strL "after-create", fun s b => { s with ServerScriptAfterCreate := b }),
   (strL "before-update", fun s b => { s with ServerScriptBeforeUpdate := b }),
   (strL "after-update", fun s b => { s with ServerScriptAfterUpdate := b }),
   (strL "before-delete", fun s b => { s with ServerScriptBeforeDelete := b }),
   (strL "after-delete", fun s b => { s with ServerScriptAfterDelete := b }),
   (strL "before-bulk-delete", fun s b => { s with ServerScriptBeforeBulkDelete := b }),
   (strL "after-bulk-delete", fun s b => { s with ServerScriptAfterBulkDelete := b }),
   (strL "before-opening-page", fun s b => { s with ServerScriptBeforeOpeningPage := b }),
   (strL "before-opening-row", fun s b => { s with ServerScriptBeforeOpeningRow := b }),
   (strL "shared", fun s b => { s with ServerScriptShared := b })]

/-- The `flagMap` of `parseClientScript`. -/
def clientFlagSetters : List (Str × (Script → Bool → Script)) :=
  [(strL "disabled", fun s b => { s with Disabled := b }),
   (strL "all", fun s b => { s with ScriptAll := b }),
   (strL "new", fun s b => { s with ScriptNew := b }),
   (strL "edit", fun s b => { s with ScriptEdit := b }),
   (strL "index", fun s b => { s with ScriptIndex := b })]

/-- Filename identity inference shared by `parseServerScript` and
`parseClientScript`: the regex `^(\d+)_([^.]*)` matches exactly when the
maximal leading digit run is non-empty and immediately followed by `_`. -/
def fileNameMatch (fileName : Str) : Option (Str × Str) :=
  let digits := fileName.takeWhile Char.isDigit
  if digits ≠ [] ∧ (fileName.drop digits.length).headD ' ' = '_' then
    some (digits, (fileName.drop (digits.length + 1)).takeWhile (fun c => c ≠ '.'))
  else none

/-- `parseServerScript` (script-sync.ts) on the file's text; `existingMap` is
the last-pulled snapshot keyed by id. -/
def parseServerScript (filePath content : Str)
    (existingMap : List (Int × ServerScript)) : LocalServerScript :=
  let parsed := parseFile content
  let metadata := parsed.1
  let body := parsed.2
  let fileName := pbasename filePath
  let m := fileNameMatch fileName
  let inferredId : Option Int := m.map (fun p => digitsVal p.1)
  let inferredTitle : Str :=
    match m with
    | some p => p.2
    | none => pbasenameExt filePath (pextname (pbasename filePath))
  let existing : Option ServerScript :=
    inferredId.bind (fun i => (existingMap.find? (fun p => decide (p.1 = i))).map (fun p => p.2))
  let script0 : ServerScript := existing.getD {}
  let script1 := { script0 with Body := some body }
  let metadataId : Option (Option Int) := (assocGet metadata (strL "id")).map jsToNumber
  let idCandidate : Option (Option Int) :=
    metadataId <|> inferredId.map some <|> script1.Id.map some
  let script2 := { script1 with Id := toNumberOrUndefined (jsNumOfCandidate idCandidate) }
  let metaTitle : Option Str := (assocGet metadata (strL "title")).map jsDisplayStr
  let metaName : Option Str := (assocGet metadata (strL "name")).map jsDisplayStr
  let script3 := { script2 with Title := metaTitle <|> script2.Title <|> some inferredTitle }
  let script4 := { script3 with Name := metaName <|> script3.Name <|> script3.Title <|> some inferredTitle }
  let script5 := serverFlagSetters.foldl
    (fun s p =>
      match assocGet metadata p.1 with
      | some v => p.2 s (jsTruthy v)
      | none => s) script4
  let script6 :=
    match assocGet metadata (strL "functionalize") with
    | some v => { script5 with Functionalize := jsTruthy v }
    | none => script5
  let script7 :=
    match assocGet metadata (strL "try-catch") with
    | some v => { script6 with TryCatch := jsTruthy v }
    | none => script6
  let idForLocal : Option Int :=
    script7.Id <|> toNumberOrUndefined (jsNumOfCandidate (metadataId <|> inferredId.map some))
  { id := idForLocal,
    title := script7.Title.getD inferredTitle,
    filePath := filePath,
    script := script7 }

/-- `parseClientScript` (script-sync.ts) on the file's text. -/
def parseClientScript (filePath content : Str)
    (existingMap : List (Int × Script)) : LocalClientScript :=
  let parsed := parseFile content
  let metadata := parsed.1
  let body := parsed.2
  let fileName := pbasename filePath
  let m := fileNameMatch fileName
  let inferredId : Option Int := m.map (fun p => digitsVal p.1)
  let inferredTitle : Str :=
    match m with
    | some p => p.2
    | none => pbasenameExt filePath (pextname (pbasename filePath))
  let existing : Option Script :=
    inferredId.bind (fun i => (existingMap.find? (fun p => decide (p.1 = i))).map (fun p => p.2))
  let script0 : Script := existing.getD {}
  let script1 := { script0 with Body := some body }
  let metadataId : Option (Option Int) := (assocGet metadata (strL "id")).map jsToNumber
  let idCandidate : Option (Option Int) :=
    metadataId <|> inferredId.map some <|> script1.Id.map some
  let script2 := { script1 with Id := toNumberOrUndefined (jsNumOfCandidate idCandidate) }
  let metaTitle : Option Str := (assocGet metadata (strL "title")).map jsDisplayStr
  let script3 := { script2 with Title := metaTitle <|> script2.Title <|> some inferredTitle }
  let script4 := clientFlagSetters.foldl
    (fun s p =>
      match assocGet metadata p.1 with
      | some v => p.2 s (jsTruthy v)
      | none => s) script3
  let idForLocal : Option Int :=
    script4.Id <|> toNumberOrUndefined (jsNumOfCandidate (metadataId <|> inferredId.map some))
  { id := idForLocal,
    title := script4.Title.getD inferredTitle,
    filePath := filePath,
    script := script4 }

/-- A directory entry as returned by `fs.readdir(..., withFileTypes)`. -/
structure Dirent where
  name : Str
  isFile : Bool
  deriving DecidableEq, Repr

/-- The paths `cleanupOrphanFiles` passes to `fs.unlink`: regular `.js`
files (case-insensitive) directly in `directory` whose normalized path is
not in the normalized keep set. -/
def cleanupOrphanDeletions (directory : Str) (entries : List Dirent)
    (keepFiles : List Str) : List Str :=
  let keepSet := keepFiles.map pnormalize
  (entries.filter (fun e =>
      e.isFile && strEndsWith (toLowerStr e.name) (strL ".js") &&
      decide (pnormalize (pjoin directory e.name) ∉ keepSet))).map
    (fun e => pnormalize (pjoin directory e.name))

/-- `writeServerScripts`: target path and written content per remote record,
in order; the returned written-path list is the first components. -/
def writeServerScriptsFiles (directory : Str) (scripts : List ServerScript) :
    List (Str × Str) :=
  scripts.map (fun s =>
    (pjoin directory (serverScriptFileName s), writeServerScriptFileContent s))

/-- `writeClientScripts`. -/
def writeClientScriptsFiles (directory : Str) (scripts : List Script) :
    List (Str × Str) :=
  scripts.map (fun s =>
    (pjoin directory (clientScriptFileName s), writeScriptFileContent s))

/-- Filesystem / state effects of the orchestrator, in program order. -/
inductive FsEvent where
  | mkdirEv (dir : Str)
  | writeEv (path : Str)
  | unlinkEv (path : Str)
  | infoUpdateEv
  | lastSyncEv
  deriving DecidableEq, Repr

/-- `e` is a file write. -/
def FsEvent.isWrite : FsEvent → Bool
  | .writeEv _ => true
  | _ => false

/-- `e` is a file deletion. -/
def FsEvent.isUnlink : FsEvent → Bool
  | .unlinkEv _ => true
  | _ => false

/-- Remote site payload after `normalizeServerScripts` / `normalizeClientScripts`
(the raw-JSON key fallback of the normalizers is not itself under test; the
claims quantify over the normalized records). -/
structure SiteData where
  title : Option Str := none
  referenceType : Option Str := none
  serverScripts : List ServerScript := []
  clientScripts : List Script := []
  deriving DecidableEq, Repr

/-- Directory listing after the pull writes: every written name is present
as a regular file, other pre-existing entries are unchanged. -/
def upsertWrittenEntries (entries : List Dirent) (names : List Str) : List Dirent :=
  entries.filter (fun e => decide (e.name ∉ names)) ++
    names.map (fun n => { name := n, isFile := true })

/-- The filesystem/state effects of a successful `pull`, in source order:
mkdir + site-setting write, server writes, client writes, server orphan
cleanup, client orphan cleanup, site-info and last-sync updates.
`preServer`/`preClient` are the listings of the two script directories
before the pull. -/
def pullFsEvents (siteDir : Str) (siteData : SiteData)
    (preServer preClient : List Dirent) : List FsEvent :=
  let serverDir := pjoin siteDir (strL "server-script")
  let clientDir := pjoin siteDir (strL "client-script")
  let ws := writeServerScriptsFiles serverDir siteData.serverScripts
  let wc := writeClientScriptsFiles clientDir siteData.clientScripts
  let postServer := upsertWrittenEntries preServer
    (siteData.serverScripts.map serverScriptFileName)
  let postClient := upsertWrittenEntries preClient
    (siteData.clientScripts.map clientScriptFileName)
  [FsEvent.mkdirEv siteDir,
   FsEvent.writeEv (pjoin siteDir (strL "site-setting.json")),
   FsEvent.mkdirEv serverDir] ++
  ws.map (fun p => FsEvent.writeEv p.1) ++
  [FsEvent.mkdirEv clientDir] ++
  wc.map (fun p => FsEvent.writeEv p.1) ++
  (cleanupOrphanDeletions serverDir postServer (ws.map (fun p => p.1))).map FsEvent.unlinkEv ++
  (cleanupOrphanDeletions clientDir postClient (wc.map (fun p => p.1))).map FsEvent.unlinkEv ++
  [FsEvent.infoUpdateEv, FsEvent.lastSyncEv]

/-- `pull`: the remote fetch (`getSiteSettings`) happens before any
filesystem effect; a fetch failure propagates with no effect performed. -/
def pullRun (fetchResult : Except Str SiteData) (siteDir : Str)
    (preServer preClient : List Dirent) : Except Str (List FsEvent) :=
  match fetchResult with
  | .error e => .error e
  | .ok siteData => .ok (pullFsEvents siteDir siteData preServer preClient)

/-- `filterByActive` (script-sync.ts): an empty active list selects
everything; otherwise only scripts whose non-null id is in the active set. -/
def filterByActive {α : Type} (getId : α → Option Int) (scripts : List α)
    (activeIds : List Int) : List α :=
  if activeIds.length = 0 then scripts
  else scripts.filter (fun script =>
    match getId script with
    | some i => decide (i ∈ activeIds)
    | none => false)

/-- Remote calls and state updates of the push paths. -/
inductive PushAction where
  | diffRun
  | remoteBatchUpdate (clientScripts : List Script) (serverScripts : List ServerScript)
  | remoteAddServerScript (script : ServerScript)
  | remoteAddScript (script : Script)
  | infoUpdate
  | lastSyncUpdate
  deriving DecidableEq, Repr

/-- `a` is a remote-store call. -/
def PushAction.isRemoteCall : PushAction → Bool
  | .remoteBatchUpdate _ _ => true
  | .remoteAddServerScript _ => true
  | .remoteAddScript _ => true
  | _ => false

/-- `a` is a persisted-state update. -/
def PushAction.isStateUpdate : PushAction → Bool
  | .infoUpdate => true
  | .lastSyncUpdate => true
  | _ => false

/-- `push` (script-sync.ts) as the list of actions it performs, given the
collected local scripts, the active id lists, and the environment's
confirmation gate (`confirmAccepted` models the user's answer to the modal
dialog). -/
def pushActions (dryRun force : Bool) (serverScripts : List LocalServerScript)
    (clientScripts : List LocalClientScript) (activeServer activeClient : List Int)
    (requiresConfirmation confirmAccepted : Bool) : List PushAction :=
  if dryRun then [.diffRun]
  else
    let filteredServer := filterByActive (fun s => s.id) serverScripts activeServer
    let filteredClient := filterByActive (fun s => s.id) clientScripts activeClient
    if filteredServer.length = 0 ∧ filteredClient.length = 0 then []
    else if requiresConfirmation ∧ force = false ∧ confirmAccepted = false then []
    else
      [.remoteBatchUpdate (filteredClient.map (fun s => s.script))
          (filteredServer.map (fun s => s.script)),
       .infoUpdate, .lastSyncUpdate]

/-- `pushFile` (script-sync.ts), the incremental-push entry point, for an
existing site: the actions performed for the given path and file text.
A path whose normalized form starts with neither normalized managed
directory returns with no action (a warning message only). -/
def pushFileActions (serverDir clientDir : Str) (filePath content : Str)
    (serverMap : List (Int × ServerScript)) (clientMap : List (Int × Script)) :
    List PushAction :=
  let normalized := pnormalize filePath
  let serverDirN := pnormalize serverDir
  let clientDirN := pnormalize clientDir
  if strStartsWith normalized serverDirN = false ∧
      strStartsWith normalized clientDirN = false then []
  else if strStartsWith normalized serverDirN then
    [.remoteAddServerScript (parseServerScript normalized content serverMap).script,
     .infoUpdate, .lastSyncUpdate]
  else
    [.remoteAddScript (parseClientScript normalized content clientMap).script,
     .infoUpdate, .lastSyncUpdate]

/-- The two script variants. -/
inductive ScriptVariant where
  | server
  | client
  deriving DecidableEq, Repr

/-- `DiffEntry` (script-sync.ts). -/
structure DiffEntry where
  type : ScriptVariant
  id : Option Int
  title : Str
  localPath : Option Str := none
  remoteContent : Option Str := none
  deriving DecidableEq, Repr

/-- `${x ?? ''}` rendering of a `number | undefined`. -/
def renderOptIntEmpty : Option Int → Str
  | some n => intToStr n
  | none => []

/-- `${x ?? ''}` rendering of a `string | undefined`. -/
def renderOptStrEmpty : Option Str → Str
  | some s => s
  | none => []

/-- `composeServerScriptContent` (script-sync.ts): the remote-side text shown
in a diff (id/title/name with `?? ''`, then one `: true` line per set hook). -/
def composeServerScriptContent (script : ServerScript) : Str :=
  let metadataLines :=
    [strL "// @pleasanter-id: " ++ renderOptIntEmpty script.Id,
     strL "// @pleasanter-title: " ++ renderOptStrEmpty script.Title,
     strL "// @pleasanter-name: " ++ renderOptStrEmpty script.Name] ++
    ((serverHooks script).filter (fun p => p.2)).map
      (fun p => plsMark ++ p.1 ++ strL ": true")
  intercalateC '\n' metadataLines ++ strL "\n\n" ++ (script.Body.getD [])

/-- `composeClientScriptContent` (script-sync.ts). -/
def composeClientScriptContent (script : Script) : Str :=
  let metadataLines :=
    [strL "// @pleasanter-id: " ++ renderOptIntEmpty script.Id,
     strL "// @pleasanter-title: " ++ renderOptStrEmpty script.Title,
     strL "// @pleasanter-all: " ++ renderBool script.ScriptAll,
     strL "// @pleasanter-new: " ++ renderBool script.ScriptNew,
     strL "// @pleasanter-edit: " ++ renderBool script.ScriptEdit,
     strL "// @pleasanter-index: " ++ renderBool script.ScriptIndex,
     strL "// @pleasanter-disabled: " ++ renderBool script.Disabled]
  intercalateC '\n' metadataLines ++ strL "\n\n" ++ (script.Body.getD [])

/-- Map key `server:${script.Id ?? script.Title}` of a remote server record. -/
def serverRemoteKey (script : ServerScript) : Str :=
  strL "server:" ++
    (match script.Id with
     | some n => intToStr n
     | none => renderOptStr script.Title)

/-- Map key `client:${script.Id ?? script.Title}` of a remote client record. -/
def clientRemoteKey (script : Script) : Str :=
  strL "client:" ++
    (match script.Id with
     | some n => intToStr n
     | none => renderOptStr script.Title)

/-- Map key `server:${script.id ?? script.title}` of a local server file. -/
def localServerKey (script : LocalServerScript) : Str :=
  strL "server:" ++
    (match script.id with
     | some n => intToStr n
     | none => script.title)

/-- Map key `client:${script.id ?? script.title}` of a local client file. -/
def localClientKey (script : LocalClientScript) : Str :=
  strL "client:" ++
    (match script.id with
     | some n => intToStr n
     | none => script.title)

/-- Seeding step of `buildDiffEntries` for a remote server record. -/
def diffRemoteServerStep (m : List (Str × DiffEntry)) (script : ServerScript) :
    List (Str × DiffEntry) :=
  assocSet m (serverRemoteKey script)
    { type := .server,
      id := toNumberOrNull (match script.Id with
        | some n => JsValue.num n
        | none => JsValue.undef),
      title := (script.Title <|> script.Name).getD (strL "(server script)"),
      remoteContent := some (composeServerScriptContent script) }

/-- Seeding step of `buildDiffEntries` for a remote client record. -/
def diffRemoteClientStep (m : List (Str × DiffEntry)) (script : Script) :
    List (Str × DiffEntry) :=
  assocSet m (clientRemoteKey script)
    { type := .client,
      id := toNumberOrNull (match script.Id with
        | some n => JsValue.num n
        | none => JsValue.undef),
      title := script.Title.getD (strL "(client script)"),
      remoteContent := some (composeClientScriptContent script) }

/-- Overlay step of `buildDiffEntries` for a local server file: merge into
the existing entry for its key, else add a local-only entry. -/
def diffLocalServerStep (m : List (Str × DiffEntry)) (script : LocalServerScript) :
    List (Str × DiffEntry) :=
  let key := localServerKey script
  match assocGet m key with
  | some e =>
    assocSet m key { e with localPath := some script.filePath, title := script.title }
  | none =>
    assocSet m key
      { type := .server, id := script.id, title := script.title,
        localPath := some script.filePath }

/-- Overlay step of `buildDiffEntries` for a local client file. -/
def diffLocalClientStep (m : List (Str × DiffEntry)) (script : LocalClientScript) :
    List (Str × DiffEntry) :=
  let key := localClientKey script
  match assocGet m key with
  | some e =>
    assocSet m key { e with localPath := some script.filePath, title := script.title }
  | none =>
    assocSet m key
      { type := .client, id := script.id, title := script.title,
        localPath := some script.filePath }

/-- The identity-keyed map `buildDiffEntries` builds: remote entries seeded
first (server then client), then local entries overlaid (merging into an
existing key, else adding a local-only entry). -/
def buildDiffMap (remoteServers : List ServerScript) (remoteClients : List Script)
    (localServer : List LocalServerScript) (localClient : List LocalClientScript) :
    List (Str × DiffEntry) :=
  localClient.foldl diffLocalClientStep
    (localServer.foldl diffLocalServerStep
      (remoteClients.foldl diffRemoteClientStep
        (remoteServers.foldl diffRemoteServerStep [])))

/-- `Number.MAX_SAFE_INTEGER`, the sort key of entries without an id. -/
def maxSafeInteger : Int := 9007199254740991

/-- The sort comparator of `buildDiffEntries`: server entries before client
entries, then ascending id with id-less entries last. -/
def diffLe (a b : DiffEntry) : Bool :=
  if a.type ≠ b.type then a.type = ScriptVariant.server
  else a.id.getD maxSafeInteger ≤ b.id.getD maxSafeInteger

/-- `buildDiffEntries` (script-sync.ts): the map's entries in insertion
order, stably sorted by `diffLe` (ECMAScript `Array.prototype.sort` is
stable, and a stable sort under a total preorder is unique, so the stable
`insertionSort` models it). -/
def buildDiffEntries (remoteServers : List ServerScript) (remoteClients : List Script)
    (localServer : List LocalServerScript) (localClient : List LocalClientScript) :
    List DiffEntry :=
  List.insertionSort (fun a b => diffLe a b = true)
    ((buildDiffMap remoteServers remoteClients localServer localClient).map
      (fun p => p.2))

/-- The per-site `active-scripts` selection. -/
structure ActiveScripts where
  server : List Int
  client : List Int
  deriving DecidableEq, Repr

/-- The persisted per-site `site-info.json` content (the fields the engine
reads and writes). -/
structure SiteInfoFile where
  title : Str := []
  referenceType : Str := []
  serverScriptsCount : Nat := 0
  clientScriptsCount : Nat := 0
  lastPulled : Str := []
  lastPushed : Str := []
  activeScripts : Option ActiveScripts := none
  deriving DecidableEq, Repr

/-- `[...new Set(l)]`: insertion-order deduplication of a JavaScript `Set`
(`seen` accumulates for structural recursion). -/
def jsSetDedupGo (seen : List Int) : List Int → List Int
  | [] => []
  | a :: l => if a ∈ seen then jsSetDedupGo seen l else a :: jsSetDedupGo (a :: seen) l

/-- `[...new Set(l)]`. -/
def jsSetDedup (l : List Int) : List Int := jsSetDedupGo [] l

/-- `[...new Set(l)].sort((a, b) => a - b)`: deduplicated, ascending.  The
numeric comparator yields a total preorder, under which the stable
ECMAScript sort is the unique stable sort, modelled by `insertionSort`. -/
def canonIds (l : List Int) : List Int :=
  List.insertionSort (fun a b => a ≤ b) (jsSetDedup l)

/-- `setActiveScripts` (script-sync.ts) as the site-info update it performs:
a full replacement of the `active-scripts` field. -/
def setActiveScripts (info : SiteInfoFile) (server client : List Int) : SiteInfoFile :=
  { info with activeScripts := some { server := canonIds server, client := canonIds client } }

/-- `getActiveScriptIds` (script-sync.ts): the stored arrays, `[]` when the
field is absent or not an array. -/
def getActiveScriptIds (info : SiteInfoFile) : List Int × List Int :=
  match info.activeScripts with
  | some a => (a.server, a.client)
  | none => ([], [])

/-- `clearActiveScripts` (script-sync.ts). -/
def clearActiveScripts (info : SiteInfoFile) : SiteInfoFile :=
  setActiveScripts info [] []

/-- An entry of `site.json`'s site list. -/
structure SiteInfo where
  siteId : Int
  siteName : Str
  environment : Str := []
  active : Bool := false
  deriving DecidableEq, Repr

/-- `SitesConfig` (api/types.ts): `current-site`/`default-site` use `0` as
the no-site sentinel. -/
structure SitesConfig where
  sites : List SiteInfo
  currentSite : Int
  defaultSite : Int
  deriving DecidableEq, Repr

/-- `SiteManager.getCurrentSite`: `current-site === 0` means no site is
selected; otherwise the site with that id (or `null`). -/
def getCurrentSite (config : SitesConfig) : Option SiteInfo :=
  if config.currentSite = 0 then none
  else config.sites.find? (fun s => decide (s.siteId = config.currentSite))

/-- `p` lies under directory `dir` (is `dir` or inside it): the directory
followed by a separator is a prefix of the path. -/
def liesUnder (dir p : Str) : Prop :=
  strStartsWith p (dir ++ ['/']) = true

instance (dir p : Str) : Decidable (liesUnder dir p) := by
  unfold liesUnder
  infer_instance

/-- Metadata update a header-shaped line performs: record the regex match's
key/value (type-coerced), or nothing when the regex does not match. -/
def headerUpd (m : Meta) (t : Str) : Meta :=
  match searchHeader t with
  | some kv => assocSet m kv.1 (parseValue kv.2)
  | none => m

/-- `headerUpd` applied to the trimmed line, as the parse loop does. -/
def lineUpd (m : Meta) (line : Str) : Meta := headerUpd m (trimStr line)

/-- The sixteen hook keys, in emission order. -/
def serverHookKeys : List Str :=
  [strL "when-loading-site-settings", strL "when-view-processing",
   strL "when-loading-record", strL "before-formula", strL "after-formula",
   strL "before-create", strL "after-create", strL "before-update",
   strL "after-update", strL "before-delete", strL "after-delete",
   strL "before-bulk-delete", strL "after-bulk-delete",
   strL "before-opening-page", strL "before-opening-row", strL "shared"]

/-- The client flag keys paired with their flag values, in emission order. -/
def clientFlagPairs (script : Script) : List (Str × Bool) :=
  [(strL "all", script.ScriptAll), (strL "new", script.ScriptNew),
   (strL "edit", script.ScriptEdit), (strL "index", script.ScriptIndex),
   (strL "disabled", script.Disabled)]

/-- The concrete server script used to instantiate the amended round-trip. -/
def rtServer : ServerScript :=
  { Id := some 5, Title := some (strL "My"), Name := some (strL "MyN"), Body := some (strL "return 1;"), ServerScriptShared := true }

/-- The concrete client script used to instantiate the amended round-trip. -/
def rtClient : Script :=
  { Id := some 2, Title := some (strL "C"), Body := some (strL "alert(1);"), ScriptNew := true }

/-- The concrete server script refuting the unamended round-trip claim. -/
def rtBadServer : ServerScript :=
  { Id := some 1, Title := some (strL "T"), Name := some (strL "N"), Body := some (strL " ") }

theorem splitOnC_ne_nil (c : Char) (s : Str) : splitOnC c s ≠ [] := by
  induction s with
  | nil => simp [splitOnC]
  | cons a rest ih =>
    simp only [splitOnC]
    split
    · simp
    · split
      · simp
      · simp

theorem intercalateC_splitOnC (c : Char) (s : Str) :
    intercalateC c (splitOnC c s) = s := by
  induction s with
  | nil => simp [splitOnC, intercalateC]
  | cons a rest ih =>
    simp only [splitOnC]
    split
    · rename_i h
      subst h
      rcases hs : splitOnC a rest with _ | ⟨x, xs⟩
      · exact absurd hs (splitOnC_ne_nil a rest)
      · rw [hs] at ih
        simp [intercalateC, ih]
    · rcases hs : splitOnC c rest with _ | ⟨x, xs⟩
      · exact absurd hs (splitOnC_ne_nil c rest)
      · rw [hs] at ih
        cases xs with
        | nil => simpa [intercalateC] using congrArg (a :: ·) ih
        | cons y ys => simpa [intercalateC] using congrArg (a :: ·) ih

theorem splitOnC_append_no_sep (c : Char) (a s : Str) (h : c ∉ a) :
    splitOnC c (a ++ s) =
      (a ++ (splitOnC c s).headD []) :: (splitOnC c s).tail := by
  induction a with
  | nil =>
    rcases hs : splitOnC c s with _ | ⟨x, xs⟩
    · exact absurd hs (splitOnC_ne_nil c s)
    · simp [hs]
  | cons b bs ih =>
    have hbc : b ≠ c := fun hb => h (by simp [hb])
    have hmem : c ∉ bs := fun hm => h (List.mem_cons_of_mem _ hm)
    rw [List.cons_append]
    simp only [splitOnC, if_neg hbc]
    rw [ih hmem]
    simp

theorem splitOnC_no_sep (c : Char) (a : Str) (h : c ∉ a) :
    splitOnC c a = [a] := by
  have := splitOnC_append_no_sep c a [] h
  simpa [splitOnC] using this

theorem splitOnC_cons_sep (c : Char) (s : Str) :
    splitOnC c (c :: s) = [] :: splitOnC c s := by
  simp [splitOnC]

theorem splitOnC_intercalateC (c : Char) (xs : List Str)
    (h : ∀ x ∈ xs, c ∉ x) (hne : xs ≠ []) :
    splitOnC c (intercalateC c xs) = xs := by
  induction xs with
  | nil => exact absurd rfl hne
  | cons x rest ih =>
    cases rest with
    | nil =>
      simpa [intercalateC] using splitOnC_no_sep c x (h x (by simp))
    | cons y ys =>
      have hx : c ∉ x := h x (by simp)
      have hrest : splitOnC c (intercalateC c (y :: ys)) = y :: ys :=
        ih (fun z hz => h z (List.mem_cons_of_mem _ hz)) (by simp)
      have : intercalateC c (x :: y :: ys) = x ++ c :: intercalateC c (y :: ys) := rfl
      rw [this, splitOnC_append_no_sep c x _ hx, splitOnC_cons_sep, hrest]
      simp

theorem trimLeftStr_cons_of_not_ws (c : Char) (s : Str) (h : isWsChar c = false) :
    trimLeftStr (c :: s) = c :: s := by
  simp [trimLeftStr, List.dropWhile_cons, h]

theorem trimRightStr_append_of_ne_nil (a b : Str) (h : trimRightStr b ≠ []) :
    trimRightStr (a ++ b) = a ++ trimRightStr b := by
  have hrev : b.reverse.dropWhile isWsChar ≠ [] := by
    intro hcon
    exact h (by simp [trimRightStr, hcon])
  simp only [trimRightStr, List.reverse_append, List.dropWhile_append]
  rw [if_neg (by simpa [List.isEmpty_iff] using hrev)]
  simp

theorem trimRightStr_append_of_nil (a b : Str) (h : trimRightStr b = []) :
    trimRightStr (a ++ b) = trimRightStr a := by
  have hrev : b.reverse.dropWhile isWsChar = [] := by
    have := congrArg List.reverse h
    simpa [trimRightStr] using this
  simp only [trimRightStr, List.reverse_append, List.dropWhile_append]
  rw [if_pos (by simp [List.isEmpty_iff, hrev])]

theorem strStartsWith_append (pre s : Str) :
    strStartsWith (pre ++ s) pre = true := by
  induction pre with
  | nil => cases s <;> simp [strStartsWith]
  | cons c cs ih => simp [strStartsWith, ih]

theorem strStartsWith_nil (s : Str) : strStartsWith s [] = true := by
  cases s <;> simp [strStartsWith]

theorem strStartsWith_iff_prefix (s pre : Str) :
    strStartsWith s pre = true ↔ ∃ t, s = pre ++ t := by
  induction pre generalizing s with
  | nil => simp [strStartsWith_nil]
  | cons p ps ih =>
    cases s with
    | nil => simp [strStartsWith]
    | cons c cs =>
      simp only [strStartsWith, Bool.and_eq_true, decide_eq_true_eq, ih]
      constructor
      · rintro ⟨rfl, t, rfl⟩
        exact ⟨t, rfl⟩
      · rintro ⟨t, ht⟩
        rw [List.cons_append] at ht
        cases ht
        exact ⟨rfl, t, rfl⟩

theorem resolveDots_plain (acc : List Str) (segs : List Str)
    (h : ∀ s ∈ segs, plainSeg s) : resolveDots acc segs = acc ++ segs := by
  induction segs generalizing acc with
  | nil => simp [resolveDots]
  | cons seg rest ih =>
    have hs := h seg (by simp)
    rw [resolveDots]
    rw [if_neg (by rcases hs with ⟨h1, h2, _, _⟩; simp [h1, h2]),
        if_neg hs.2.2.1]
    rw [ih _ (fun s hmem => h s (List.mem_cons_of_mem _ hmem))]
    simp

theorem splitOnC_slash_goodAbs (segs : List Str) (hplain : ∀ s ∈ segs, plainSeg s)
    (hne : segs ≠ []) :
    splitOnC '/' ('/' :: intercalateC '/' segs) = [] :: segs := by
  rw [splitOnC_cons_sep]
  rw [splitOnC_intercalateC '/' segs (fun x hx => (hplain x hx).2.2.2) hne]

theorem pnormalize_goodAbs (p : Str) (h : goodAbsPath p) : pnormalize p = p := by
  obtain ⟨segs, hne, hplain, rfl⟩ := h
  rw [pnormalize, if_pos (by simp [strL, strStartsWith])]
  rw [splitOnC_slash_goodAbs segs hplain hne]
  rw [resolveDots, if_pos (by simp)]
  rw [resolveDots_plain [] segs hplain]
  simp

theorem intercalateC_append_singleton (c : Char) (xs : List Str) (y : Str)
    (hne : xs ≠ []) :
    intercalateC c (xs ++ [y]) = intercalateC c xs ++ c :: y := by
  induction xs with
  | nil => exact absurd rfl hne
  | cons x rest ih =>
    cases rest with
    | nil => simp [intercalateC]
    | cons z zs =>
      have h2 := ih (by simp)
      show intercalateC c (x :: z :: (zs ++ [y])) = intercalateC c (x :: z :: zs) ++ c :: y
      have e1 : intercalateC c (x :: z :: (zs ++ [y])) =
          x ++ c :: intercalateC c (z :: (zs ++ [y])) := rfl
      have e2 : intercalateC c (x :: z :: zs) = x ++ c :: intercalateC c (z :: zs) := rfl
      rw [e1, e2]
      have h3 : intercalateC c (z :: (zs ++ [y])) = intercalateC c (z :: zs) ++ c :: y := by
        simpa using h2
      rw [h3]
      simp

theorem goodAbsPath_append_seg (p : Str) (b : Str) (h : goodAbsPath p)
    (hb : plainSeg b) : goodAbsPath (p ++ '/' :: b) := by
  obtain ⟨segs, hne, hplain, rfl⟩ := h
  refine ⟨segs ++ [b], by simp, ?_, ?_⟩
  · intro s hs
    rcases List.mem_append.mp hs with hs | hs
    · exact hplain s hs
    · simp only [List.mem_singleton] at hs
      exact hs ▸ hb
  · rw [intercalateC_append_singleton '/' segs b hne]
    simp

theorem pjoin_goodAbs (p : Str) (b : Str) (h : goodAbsPath p) (hb : plainSeg b) :
    pjoin p b = p ++ '/' :: b :=
  pnormalize_goodAbs _ (goodAbsPath_append_seg p b h hb)

theorem goodAbsPath_segs_inj (segs₁ segs₂ : List Str)
    (h1 : ∀ s ∈ segs₁, plainSeg s) (h2 : ∀ s ∈ segs₂, plainSeg s)
    (hne₁ : segs₁ ≠ []) (hne₂ : segs₂ ≠ [])
    (heq : ('/' :: intercalateC '/' segs₁ : Str) = '/' :: intercalateC '/' segs₂) :
    segs₁ = segs₂ := by
  have e1 := splitOnC_intercalateC '/' segs₁ (fun x hx => (h1 x hx).2.2.2) hne₁
  have e2 := splitOnC_intercalateC '/' segs₂ (fun x hx => (h2 x hx).2.2.2) hne₂
  have h : intercalateC '/' segs₁ = intercalateC '/' segs₂ := by
    injection heq
  rw [← e1, ← e2, h]

/-- C7: a failing remote fetch aborts `pull` before any filesystem write or
deletion and before any site-state update: the error propagates and no
effect event is produced. -/
theorem pull_fetch_error_aborts (e : Str) (siteDir : Str)
    (preServer preClient : List Dirent) :
    pullRun (Except.error e) siteDir preServer preClient = Except.error e := by
  rfl

/-- C5 (amended): `pushFile` is a no-op — no remote call, no state update,
a normal return — for every path whose normalized form does not start, as a
string, with either normalized managed-directory path. -/
theorem pushFile_outside_noop (serverDir clientDir filePath content : Str)
    (serverMap : List (Int × ServerScript)) (clientMap : List (Int × Script))
    (h1 : strStartsWith (pnormalize filePath) (pnormalize serverDir) = false)
    (h2 : strStartsWith (pnormalize filePath) (pnormalize clientDir) = false) :
    pushFileActions serverDir clientDir filePath content serverMap clientMap = [] := by
  unfold pushFileActions
  rw [if_pos ⟨h1, h2⟩]

theorem pushFile_outside_noop_witness :
    strStartsWith (pnormalize (strL "/tmp/outside.js"))
        (pnormalize (strL "/w/s/server-script")) = false ∧
    strStartsWith (pnormalize (strL "/tmp/outside.js"))
        (pnormalize (strL "/w/s/client-script")) = false ∧
    pushFileActions (strL "/w/s/server-script") (strL "/w/s/client-script")
        (strL "/tmp/outside.js") (strL "x") [] [] = [] :=
  ⟨by decide, by decide,
    pushFile_outside_noop (strL "/w/s/server-script") (strL "/w/s/client-script")
      (strL "/tmp/outside.js") (strL "x") [] [] (by decide) (by decide)⟩

/-- C5 (counterexample): the guard is a raw string-prefix test without a
separator, so a sibling path that merely extends the directory name — here
`/w/s/server-scriptX/a.js`, which does not lie under `/w/s/server-script` —
is not rejected: `pushFile` performs a remote call for it. -/
theorem pushFile_prefix_counterexample :
    ¬ liesUnder (strL "/w/s/server-script") (strL "/w/s/server-scriptX/a.js") ∧
    ¬ liesUnder (strL "/w/s/client-script") (strL "/w/s/server-scriptX/a.js") ∧
    (pushFileActions (strL "/w/s/server-script") (strL "/w/s/client-script")
        (strL "/w/s/server-scriptX/a.js") (strL "x") [] []).any
      (fun a => a.isRemoteCall) = true := by
  refine ⟨by decide, by decide, by decide⟩

/-- C4 (counterexample): a file named `new_Draft.js` does not match
`^(\d+)_(.*)`, so the inferred title is the whole basename without its
extension — `new_Draft`, not `Draft` as the claim states. -/
theorem filenameInference_counterexample :
    (parseServerScript (strL "new_Draft.js") (strL "x") []).title = strL "new_Draft" ∧
    strL "new_Draft" ≠ strL "Draft" := by
  refine ⟨by decide, by decide⟩

/-- C4 (amended): with no header lines (empty parsed metadata) and no
snapshot, `42_MyScript.js` decodes to id `42` and title `MyScript`, and
`new_Draft.js` decodes to an absent id and title `new_Draft` (the basename
without extension), for both variants. -/
theorem filenameInference_amended (content : Str) (b : Str)
    (hpf : parseFile content = ([], b)) :
    (parseServerScript (strL "42_MyScript.js") content []).id = some 42 ∧
    (parseServerScript (strL "42_MyScript.js") content []).title = strL "MyScript" ∧
    (parseClientScript (strL "42_MyScript.js") content []).id = some 42 ∧
    (parseClientScript (strL "42_MyScript.js") content []).title = strL "MyScript" ∧
    (parseServerScript (strL "new_Draft.js") content []).id = none ∧
    (parseServerScript (strL "new_Draft.js") content []).title = strL "new_Draft" ∧
    (parseClientScript (strL "new_Draft.js") content []).id = none ∧
    (parseClientScript (strL "new_Draft.js") content []).title = strL "new_Draft" := by
  simp only [parseServerScript, parseClientScript, hpf]
  refine ⟨rfl, rfl, rfl, rfl, rfl, rfl, rfl, rfl⟩

theorem filenameInference_amended_witness :
    parseFile (strL "x") = ([], strL "x") ∧
    (parseServerScript (strL "42_MyScript.js") (strL "x") []).id = some 42 :=
  ⟨by decide, (filenameInference_amended (strL "x") (strL "x") (by decide)).1⟩

/-- C9: the two zero sentinels stay distinct.  A sites configuration whose
`current-site` is `0` selects no site, while a script-record id of `0` is a
present id: a file `0_T.js` resolves id `0` (not absent) in both variants,
and pull names a record with id `0` as `0_<title>.js`, never
`new_<title>.js`. -/
theorem zero_sentinels_distinct (config : SitesConfig) (h0 : config.currentSite = 0)
    (content b : Str) (hpf : parseFile content = ([], b))
    (sscript : ServerScript) (hsid : sscript.Id = some 0)
    (cscript : Script) (hcid : cscript.Id = some 0) :
    getCurrentSite config = none ∧
    (parseServerScript (strL "0_T.js") content []).id = some 0 ∧
    (parseClientScript (strL "0_T.js") content []).id = some 0 ∧
    serverScriptFileName sscript =
      strL "0_" ++ sanitizeFileName ((sscript.Title <|> sscript.Name).getD (strL "server-script"))
        ++ strL ".js" ∧
    clientScriptFileName cscript =
      strL "0_" ++ sanitizeFileName (cscript.Title.getD (strL "client-script")) ++ strL ".js" := by
  refine ⟨?_, ?_, ?_, ?_, ?_⟩
  · unfold getCurrentSite
    rw [if_pos h0]
  · simp only [parseServerScript, hpf]
    rfl
  · simp only [parseClientScript, hpf]
    rfl
  · unfold serverScriptFileName
    rw [hsid]
    rfl
  · unfold clientScriptFileName
    rw [hcid]
    rfl

theorem zero_sentinels_distinct_witness :
    getCurrentSite { sites := [{ siteId := 5, siteName := strL "S" }], currentSite := 0, defaultSite := 0 } = none ∧
    (parseServerScript (strL "0_T.js") (strL "x") []).id = some 0 ∧
    serverScriptFileName { Id := some 0, Title := some (strL "T") } = strL "0_T.js" := by
  have h := zero_sentinels_distinct
    { sites := [{ siteId := 5, siteName := strL "S" }], currentSite := 0, defaultSite := 0 }
    (by decide) (strL "x") (strL "x") (by decide)
    { Id := some 0, Title := some (strL "T") } (by decide)
    { Id := some 0, Title := some (strL "T") } (by decide)
  exact ⟨h.1, h.2.1, by decide⟩

/-- C10: orphan cleanup touches only regular `.js` files (case-insensitive)
directly in the given directory.  Any listed entry that is a subdirectory or
has a different extension is never deleted, and every deleted path is the
in-directory path of some listed `.js` file entry.  (`hplain`/`hdir` say the
directory is a clean absolute path and the listed names are genuine single
filenames, as `fs.readdir` returns them.) -/
theorem cleanupOrphan_scope (directory : Str) (entries : List Dirent)
    (keepFiles : List Str) (e : Dirent) (he : e ∈ entries)
    (hnodup : (entries.map (fun d => d.name)).Nodup)
    (hdir : goodAbsPath directory) (hplain : ∀ d ∈ entries, plainSeg d.name)
    (hskip : ¬(e.isFile = true ∧ strEndsWith (toLowerStr e.name) (strL ".js") = true)) :
    pnormalize (pjoin directory e.name) ∉ cleanupOrphanDeletions directory entries keepFiles ∧
    ∀ p ∈ cleanupOrphanDeletions directory entries keepFiles,
      ∃ d ∈ entries, d.isFile = true ∧ strEndsWith (toLowerStr d.name) (strL ".js") = true ∧
        p = pnormalize (pjoin directory d.name) := by
  constructor
  · intro hmem
    unfold cleanupOrphanDeletions at hmem
    rw [List.mem_map] at hmem
    obtain ⟨d, hdmem, hdeq⟩ := hmem
    rw [List.mem_filter] at hdmem
    obtain ⟨hdent, hdcond⟩ := hdmem
    -- the normalized in-directory paths agree, so the names agree
    have hjoin_d : pjoin directory d.name = directory ++ '/' :: d.name :=
      pjoin_goodAbs directory d.name hdir (hplain d hdent)
    have hjoin_e : pjoin directory e.name = directory ++ '/' :: e.name :=
      pjoin_goodAbs directory e.name hdir (hplain e he)
    have hnorm_d : pnormalize (pjoin directory d.name) = pjoin directory d.name := by
      rw [hjoin_d]
      exact pnormalize_goodAbs _ (goodAbsPath_append_seg directory d.name hdir (hplain d hdent))
    have hnorm_e : pnormalize (pjoin directory e.name) = pjoin directory e.name := by
      rw [hjoin_e]
      exact pnormalize_goodAbs _ (goodAbsPath_append_seg directory e.name hdir (hplain e he))
    have hpaths : directory ++ '/' :: d.name = directory ++ '/' :: e.name := by
      rw [← hjoin_d, ← hjoin_e, ← hnorm_d, ← hnorm_e, hdeq]
    have hnames : d.name = e.name := by
      have := List.append_cancel_left hpaths
      exact List.cons_injective.eq_iff.mp this
    have hde : d = e := List.inj_on_of_nodup_map hnodup hdent he hnames
    subst hde
    simp only [Bool.and_eq_true, decide_eq_true_eq] at hdcond
    exact hskip ⟨hdcond.1.1, hdcond.1.2⟩
  · intro p hp
    unfold cleanupOrphanDeletions at hp
    rw [List.mem_map] at hp
    obtain ⟨d, hdmem, hdeq⟩ := hp
    rw [List.mem_filter] at hdmem
    obtain ⟨hdent, hdcond⟩ := hdmem
    simp only [Bool.and_eq_true, decide_eq_true_eq] at hdcond
    exact ⟨d, hdent, hdcond.1.1, hdcond.1.2, hdeq.symm⟩

theorem cleanupOrphan_scope_witness :
    (⟨strL "notes.txt", true⟩ : Dirent) ∈
        [(⟨strL "1_A.js", true⟩ : Dirent), ⟨strL "notes.txt", true⟩, ⟨strL "sub", false⟩] ∧
    pnormalize (pjoin (strL "/w/s/server-script") (strL "notes.txt")) ∉
      cleanupOrphanDeletions (strL "/w/s/server-script")
        [⟨strL "1_A.js", true⟩, ⟨strL "notes.txt", true⟩, ⟨strL "sub", false⟩]
        [strL "/w/s/server-script/1_A.js"] := by
  refine ⟨by decide, ?_⟩
  exact (cleanupOrphan_scope (strL "/w/s/server-script")
    [⟨strL "1_A.js", true⟩, ⟨strL "notes.txt", true⟩, ⟨strL "sub", false⟩]
    [strL "/w/s/server-script/1_A.js"] ⟨strL "notes.txt", true⟩ (by decide) (by decide)
    ⟨[strL "w", strL "s", strL "server-script"], by decide, by decide, by decide⟩
    (by decide) (by decide)).1

theorem jsSetDedupGo_mem (l : List Int) (x : Int) : ∀ seen,
    (x ∈ jsSetDedupGo seen l ↔ x ∈ l ∧ x ∉ seen) := by
  induction l with
  | nil => intro seen; simp [jsSetDedupGo]
  | cons a rest ih =>
    intro seen
    by_cases hx : x = a
    · subst hx
      by_cases ha : x ∈ seen
      · simp only [jsSetDedupGo, if_pos ha, ih]
        simp [ha]
      · simp only [jsSetDedupGo, if_neg ha]
        simp [ha]
    · by_cases ha : a ∈ seen
      · simp only [jsSetDedupGo, if_pos ha, ih]
        simp [hx]
      · simp only [jsSetDedupGo, if_neg ha, List.mem_cons, ih]
        simp [hx]

theorem jsSetDedupGo_nodup (l : List Int) : ∀ seen, (jsSetDedupGo seen l).Nodup := by
  induction l with
  | nil => intro seen; simp [jsSetDedupGo]
  | cons a rest ih =>
    intro seen
    by_cases ha : a ∈ seen
    · simp only [jsSetDedupGo, if_pos ha]
      exact ih seen
    · simp only [jsSetDedupGo, if_neg ha]
      refine List.nodup_cons.mpr ⟨?_, ih (a :: seen)⟩
      intro hmem
      rw [jsSetDedupGo_mem] at hmem
      exact hmem.2 (by simp)

theorem canonIds_sorted (l : List Int) : (canonIds l).Sorted (· ≤ ·) :=
  List.sorted_insertionSort _ _

theorem canonIds_nodup (l : List Int) : (canonIds l).Nodup :=
  (List.perm_insertionSort _ _).nodup_iff.mpr (jsSetDedupGo_nodup l [])

theorem canonIds_mem (l : List Int) (x : Int) : x ∈ canonIds l ↔ x ∈ l := by
  unfold canonIds jsSetDedup
  rw [List.mem_insertionSort, jsSetDedupGo_mem]
  simp

theorem canonIds_perm_invariant (l l' : List Int) (h : l'.Perm l) :
    canonIds l' = canonIds l := by
  refine List.eq_of_perm_of_sorted ?_ (canonIds_sorted l') (canonIds_sorted l)
  rw [List.perm_ext_iff_of_nodup (canonIds_nodup l') (canonIds_nodup l)]
  intro a
  rw [canonIds_mem, canonIds_mem]
  exact ⟨fun hm => h.mem_iff.mp hm, fun hm => h.mem_iff.mpr hm⟩

/-- C8: `setActiveScripts` stores, for each variant, exactly the
deduplicated ascending sort of its input — independently of the input order
and of whatever was stored before (full replacement) — and
`getActiveScriptIds` reads it back. -/
theorem setActiveScripts_canonical (info : SiteInfoFile)
    (server client server2 client2 : List Int)
    (hs : server2.Perm server) (hc : client2.Perm client) :
    getActiveScriptIds (setActiveScripts info server client) =
      (canonIds server, canonIds client) ∧
    (canonIds server).Sorted (· ≤ ·) ∧ (canonIds server).Nodup ∧
    (∀ x : Int, x ∈ canonIds server ↔ x ∈ server) ∧
    (canonIds client).Sorted (· ≤ ·) ∧ (canonIds client).Nodup ∧
    (∀ x : Int, x ∈ canonIds client ↔ x ∈ client) ∧
    canonIds server2 = canonIds server ∧ canonIds client2 = canonIds client := by
  refine ⟨rfl, canonIds_sorted server, canonIds_nodup server, canonIds_mem server,
    canonIds_sorted client, canonIds_nodup client, canonIds_mem client,
    canonIds_perm_invariant server server2 hs, canonIds_perm_invariant client client2 hc⟩

theorem setActiveScripts_canonical_witness :
    ([1, 3, 3] : List Int).Perm [3, 1, 3] ∧
    getActiveScriptIds (setActiveScripts {} [3, 1, 3] [2]) = ([1, 3], [2]) := by
  have h := setActiveScripts_canonical {} [3, 1, 3] [2] [1, 3, 3] [2]
    (by decide) (by decide)
  refine ⟨by decide, ?_⟩
  rw [h.1]
  decide

theorem filterByActive_mem {α : Type} (getId : α → Option Int) (scripts : List α)
    (activeIds : List Int) (hne : activeIds ≠ []) (x : α) :
    x ∈ filterByActive getId scripts activeIds ↔
      x ∈ scripts ∧ ∃ i, getId x = some i ∧ i ∈ activeIds := by
  unfold filterByActive
  rw [if_neg (by simpa [List.length_eq_zero] using hne), List.mem_filter]
  rcases hid : getId x with _ | i
  · simp [hid]
  · simp [hid]

/-- C6: push scoping.  An empty active set selects every collected local
script; a non-empty active set selects exactly the scripts whose non-null id
is in it; and when nothing is selected, `push` performs no action at all —
in particular no remote-store call — and returns success. -/
theorem push_active_scoping (serverScripts : List LocalServerScript)
    (clientScripts : List LocalClientScript) (activeServer activeClient : List Int)
    (force requiresConfirmation confirmAccepted : Bool)
    (s : LocalServerScript) (c : LocalClientScript)
    (hserver : activeServer ≠ []) (hclient : activeClient ≠ []) :
    filterByActive (fun x => x.id) serverScripts ([] : List Int) = serverScripts ∧
    filterByActive (fun x => x.id) clientScripts ([] : List Int) = clientScripts ∧
    (s ∈ filterByActive (fun x => x.id) serverScripts activeServer ↔
      s ∈ serverScripts ∧ ∃ i, s.id = some i ∧ i ∈ activeServer) ∧
    (c ∈ filterByActive (fun x => x.id) clientScripts activeClient ↔
      c ∈ clientScripts ∧ ∃ i, c.id = some i ∧ i ∈ activeClient) ∧
    (filterByActive (fun x => x.id) serverScripts activeServer = [] →
      filterByActive (fun x => x.id) clientScripts activeClient = [] →
      pushActions false force serverScripts clientScripts activeServer activeClient
        requiresConfirmation confirmAccepted = []) := by
  refine ⟨rfl, rfl, ?_, ?_, ?_⟩
  · exact filterByActive_mem (fun x => x.id) serverScripts activeServer hserver s
  · exact filterByActive_mem (fun x => x.id) clientScripts activeClient hclient c
  · intro h1 h2
    unfold pushActions
    rw [if_neg (by simp)]
    simp only [h1, h2]
    rw [if_pos ⟨rfl, rfl⟩]

theorem push_active_scoping_witness :
    ([7] : List Int) ≠ [] ∧
    pushActions false false
      [{ id := some 3, title := strL "A", filePath := strL "/p/3_A.js", script := {} }]
      [] [7] [7] true false = [] := by
  have h := push_active_scoping
    [{ id := some 3, title := strL "A", filePath := strL "/p/3_A.js", script := {} }]
    [] [7] [7] false true false
    { id := some 3, title := strL "A", filePath := strL "/p/3_A.js", script := {} }
    { id := none, title := strL "B", filePath := strL "/p/new_B.js", script := {} }
    (by decide) (by decide)
  exact ⟨by decide, h.2.2.2.2 (by decide) (by decide)⟩

theorem assocSet_keys {α : Type} (m : List (Str × α)) (k : Str) (v : α) :
    (assocSet m k v).map (fun p => p.1) =
      if k ∈ m.map (fun p => p.1) then m.map (fun p => p.1)
      else m.map (fun p => p.1) ++ [k] := by
  induction m with
  | nil =>
    rw [if_neg (by simp)]
    rfl
  | cons p m ih =>
    by_cases hp : p.1 = k
    · simp only [assocSet, if_pos hp, List.map_cons]
      rw [if_pos (by rw [hp]; exact List.mem_cons_self _ _)]
      rw [hp]
    · simp only [assocSet, if_neg hp, List.map_cons, ih]
      by_cases hk : k ∈ m.map (fun p => p.1)
      · rw [if_pos hk, if_pos (List.mem_cons_of_mem _ hk)]
      · rw [if_neg hk, if_neg ?hfresh]
        case hfresh =>
          intro hcon
          rcases List.mem_cons.mp hcon with h | h
          · exact hp h.symm
          · exact hk h
        rfl

theorem assocSet_length {α : Type} (m : List (Str × α)) (k : Str) (v : α) :
    (assocSet m k v).length =
      if k ∈ m.map (fun p => p.1) then m.length else m.length + 1 := by
  by_cases hk : k ∈ m.map (fun p => p.1)
  · have h := congrArg List.length (assocSet_keys m k v)
    rw [if_pos hk] at h
    rw [if_pos hk]
    simp only [List.length_map] at h
    exact h
  · have h := congrArg List.length (assocSet_keys m k v)
    rw [if_neg hk] at h
    rw [if_neg hk]
    simp only [List.length_map, List.length_append, List.length_singleton] at h
    exact h

theorem foldl_assocStep_keys {α β : Type} (step : List (Str × α) → β → List (Str × α))
    (keyf : β → Str) (hstep : ∀ m x, ∃ v, step m x = assocSet m (keyf x) v)
    (l : List β) (m : List (Str × α)) (k : Str) :
    k ∈ (l.foldl step m).map (fun p => p.1) ↔
      k ∈ m.map (fun p => p.1) ∨ k ∈ l.map keyf := by
  induction l generalizing m with
  | nil =>
    rw [List.foldl_nil, List.map_nil]
    constructor
    · exact fun h => Or.inl h
    · rintro (h | h)
      · exact h
      · exact absurd h (List.not_mem_nil k)
  | cons x rest ih =>
    obtain ⟨v, hv⟩ := hstep m x
    rw [List.foldl_cons, ih (step m x), hv, assocSet_keys, List.map_cons, List.mem_cons]
    by_cases hk : keyf x ∈ m.map (fun p => p.1)
    · rw [if_pos hk]
      constructor
      · rintro (h | h)
        · exact Or.inl h
        · exact Or.inr (Or.inr h)
      · rintro (h | h | h)
        · exact Or.inl h
        · exact Or.inl (h ▸ hk)
        · exact Or.inr h
    · rw [if_neg hk]
      constructor
      · rintro (h | h)
        · rcases List.mem_append.mp h with h | h
          · exact Or.inl h
          · exact Or.inr (Or.inl (by simpa using h))
        · exact Or.inr (Or.inr h)
      · rintro (h | h | h)
        · exact Or.inl (List.mem_append.mpr (Or.inl h))
        · exact Or.inl (List.mem_append.mpr (Or.inr (by simpa using h)))
        · exact Or.inr h

theorem foldl_assocStep_length_ge {α β : Type} (step : List (Str × α) → β → List (Str × α))
    (keyf : β → Str) (hstep : ∀ m x, ∃ v, step m x = assocSet m (keyf x) v)
    (l : List β) (m : List (Str × α)) :
    m.length ≤ (l.foldl step m).length := by
  induction l generalizing m with
  | nil => simp
  | cons x rest ih =>
    obtain ⟨v, hv⟩ := hstep m x
    rw [List.foldl_cons]
    refine le_trans ?_ (ih (step m x))
    rw [hv, assocSet_length]
    split
    · exact le_refl _
    · exact Nat.le_succ _

theorem foldl_assocStep_keys_nodup {α β : Type} (step : List (Str × α) → β → List (Str × α))
    (keyf : β → Str) (hstep : ∀ m x, ∃ v, step m x = assocSet m (keyf x) v)
    (l : List β) (m : List (Str × α))
    (hm : (m.map (fun p => p.1)).Nodup) :
    ((l.foldl step m).map (fun p => p.1)).Nodup := by
  induction l generalizing m with
  | nil => exact hm
  | cons x rest ih =>
    obtain ⟨v, hv⟩ := hstep m x
    rw [List.foldl_cons]
    refine ih (step m x) ?_
    rw [hv, assocSet_keys]
    split
    · exact hm
    · rename_i hk
      refine List.Nodup.append hm (List.nodup_singleton _) ?_
      intro a ha hb
      simp only [List.mem_singleton] at hb
      exact hk (hb ▸ ha)

theorem foldl_assocStep_fresh_keys {α β : Type} (step : List (Str × α) → β → List (Str × α))
    (keyf : β → Str) (hstep : ∀ m x, ∃ v, step m x = assocSet m (keyf x) v)
    (l : List β) (m : List (Str × α))
    (hnodup : (l.map keyf).Nodup)
    (hdisj : ∀ x ∈ l, keyf x ∉ m.map (fun p => p.1)) :
    (l.foldl step m).map (fun p => p.1) = m.map (fun p => p.1) ++ l.map keyf := by
  induction l generalizing m with
  | nil => simp
  | cons x rest ih =>
    obtain ⟨v, hv⟩ := hstep m x
    rw [List.foldl_cons]
    have hfresh : keyf x ∉ m.map (fun p => p.1) := hdisj x (by simp)
    have hkeys : (step m x).map (fun p => p.1) = m.map (fun p => p.1) ++ [keyf x] := by
      rw [hv, assocSet_keys, if_neg hfresh]
    rw [List.map_cons, List.nodup_cons] at hnodup
    have hnodup2 : (rest.map keyf).Nodup := hnodup.2
    have hdisj2 : ∀ y ∈ rest, keyf y ∉ (step m x).map (fun p => p.1) := by
      intro y hy
      rw [hkeys]
      intro hmem
      rcases List.mem_append.mp hmem with h | h
      · exact hdisj y (List.mem_cons_of_mem _ hy) h
      · simp only [List.mem_singleton] at h
        exact hnodup.1 (h ▸ List.mem_map_of_mem keyf hy)
    rw [ih (step m x) hnodup2 hdisj2, hkeys]
    simp

theorem diffRemoteServerStep_hstep (m : List (Str × DiffEntry)) (script : ServerScript) :
    ∃ v, diffRemoteServerStep m script = assocSet m (serverRemoteKey script) v :=
  ⟨_, rfl⟩

theorem diffRemoteClientStep_hstep (m : List (Str × DiffEntry)) (script : Script) :
    ∃ v, diffRemoteClientStep m script = assocSet m (clientRemoteKey script) v :=
  ⟨_, rfl⟩

theorem diffLocalServerStep_hstep (m : List (Str × DiffEntry)) (script : LocalServerScript) :
    ∃ v, diffLocalServerStep m script = assocSet m (localServerKey script) v := by
  simp only [diffLocalServerStep]
  cases assocGet m (localServerKey script) with
  | none => exact ⟨_, rfl⟩
  | some e => exact ⟨_, rfl⟩

theorem diffLocalClientStep_hstep (m : List (Str × DiffEntry)) (script : LocalClientScript) :
    ∃ v, diffLocalClientStep m script = assocSet m (localClientKey script) v := by
  simp only [diffLocalClientStep]
  cases assocGet m (localClientKey script) with
  | none => exact ⟨_, rfl⟩
  | some e => exact ⟨_, rfl⟩

theorem serverKey_ne_clientKey (x y : Str) :
    strL "server:" ++ x ≠ strL "client:" ++ y := by
  intro h
  have h2 : ('s' : Char) = 'c' := congrArg (fun l => l.headD ' ') h
  exact absurd h2 (by decide)

/-- C3 (amended): provided the remote records of each variant have pairwise
distinct map keys (id, else title) and likewise the local files, `reconcile`
drops no input: the output has at least `max(|remote|, |local|)` entries,
and every remote record's key and every local file's key appears among the
built map's keys. -/
theorem reconcile_no_drop (remoteServers : List ServerScript) (remoteClients : List Script)
    (localServer : List LocalServerScript) (localClient : List LocalClientScript)
    (hrs : (remoteServers.map serverRemoteKey).Nodup)
    (hrc : (remoteClients.map clientRemoteKey).Nodup)
    (hls : (localServer.map localServerKey).Nodup)
    (hlc : (localClient.map localClientKey).Nodup) :
    max (remoteServers.length + remoteClients.length)
        (localServer.length + localClient.length) ≤
      (buildDiffEntries remoteServers remoteClients localServer localClient).length ∧
    (∀ s ∈ remoteServers, serverRemoteKey s ∈
      (buildDiffMap remoteServers remoteClients localServer localClient).map (fun p => p.1)) ∧
    (∀ s ∈ remoteClients, clientRemoteKey s ∈
      (buildDiffMap remoteServers remoteClients localServer localClient).map (fun p => p.1)) ∧
    (∀ s ∈ localServer, localServerKey s ∈
      (buildDiffMap remoteServers remoteClients localServer localClient).map (fun p => p.1)) ∧
    (∀ s ∈ localClient, localClientKey s ∈
      (buildDiffMap remoteServers remoteClients localServer localClient).map (fun p => p.1)) := by
  have hcross_rc : ∀ c, clientRemoteKey c ∉ remoteServers.map serverRemoteKey := by
    intro c hmem
    rw [List.mem_map] at hmem
    obtain ⟨s, _, heq⟩ := hmem
    exact serverKey_ne_clientKey _ _ heq
  have hm1keys : (remoteServers.foldl diffRemoteServerStep []).map (fun p => p.1)
      = remoteServers.map serverRemoteKey := by
    have h := foldl_assocStep_fresh_keys diffRemoteServerStep serverRemoteKey
      diffRemoteServerStep_hstep remoteServers [] hrs
      (fun x _ hc => absurd hc (List.not_mem_nil _))
    simpa using h
  have hdisj1 : ∀ x ∈ remoteClients, clientRemoteKey x ∉
      (remoteServers.foldl diffRemoteServerStep []).map (fun p => p.1) := by
    intro x _
    rw [hm1keys]
    exact hcross_rc x
  have hm2keys := foldl_assocStep_fresh_keys diffRemoteClientStep clientRemoteKey
    diffRemoteClientStep_hstep remoteClients (remoteServers.foldl diffRemoteServerStep [])
    hrc hdisj1
  rw [hm1keys] at hm2keys
  have hm2len : (remoteClients.foldl diffRemoteClientStep
      (remoteServers.foldl diffRemoteServerStep [])).length
      = remoteServers.length + remoteClients.length := by
    have h := congrArg List.length hm2keys
    simpa using h
  have hMdef : buildDiffMap remoteServers remoteClients localServer localClient
      = localClient.foldl diffLocalClientStep (localServer.foldl diffLocalServerStep
          (remoteClients.foldl diffRemoteClientStep
            (remoteServers.foldl diffRemoteServerStep []))) := rfl
  have hEntLen : (buildDiffEntries remoteServers remoteClients localServer localClient).length
      = (buildDiffMap remoteServers remoteClients localServer localClient).length := by
    unfold buildDiffEntries
    rw [List.length_insertionSort, List.length_map]
  have hlen3 := foldl_assocStep_length_ge diffLocalServerStep localServerKey
    diffLocalServerStep_hstep localServer
    (remoteClients.foldl diffRemoteClientStep (remoteServers.foldl diffRemoteServerStep []))
  have hlen4 := foldl_assocStep_length_ge diffLocalClientStep localClientKey
    diffLocalClientStep_hstep localClient
    (localServer.foldl diffLocalServerStep
      (remoteClients.foldl diffRemoteClientStep (remoteServers.foldl diffRemoteServerStep [])))
  have hRdisj : (remoteServers.map serverRemoteKey).Disjoint (remoteClients.map clientRemoteKey) := by
    intro a ha hb
    rw [List.mem_map] at hb
    obtain ⟨c, _, hc⟩ := hb
    exact hcross_rc c (hc ▸ ha)
  have hm2nodup : ((remoteClients.foldl diffRemoteClientStep
      (remoteServers.foldl diffRemoteServerStep [])).map (fun p => p.1)).Nodup := by
    rw [hm2keys]
    exact List.Nodup.append hrs hrc hRdisj
  have hm3nodup := foldl_assocStep_keys_nodup diffLocalServerStep localServerKey
    diffLocalServerStep_hstep localServer _ hm2nodup
  have hMnodup := foldl_assocStep_keys_nodup diffLocalClientStep localClientKey
    diffLocalClientStep_hstep localClient _ hm3nodup
  have hsubS : ∀ x ∈ localServer, localServerKey x ∈
      (buildDiffMap remoteServers remoteClients localServer localClient).map (fun p => p.1) := by
    intro x hx
    rw [hMdef, foldl_assocStep_keys diffLocalClientStep localClientKey diffLocalClientStep_hstep]
    left
    rw [foldl_assocStep_keys diffLocalServerStep localServerKey diffLocalServerStep_hstep]
    right
    exact List.mem_map_of_mem _ hx
  have hsubC : ∀ x ∈ localClient, localClientKey x ∈
      (buildDiffMap remoteServers remoteClients localServer localClient).map (fun p => p.1) := by
    intro x hx
    rw [hMdef, foldl_assocStep_keys diffLocalClientStep localClientKey diffLocalClientStep_hstep]
    right
    exact List.mem_map_of_mem _ hx
  have hremS : ∀ s ∈ remoteServers, serverRemoteKey s ∈
      (buildDiffMap remoteServers remoteClients localServer localClient).map (fun p => p.1) := by
    intro s hs
    rw [hMdef, foldl_assocStep_keys diffLocalClientStep localClientKey diffLocalClientStep_hstep]
    left
    rw [foldl_assocStep_keys diffLocalServerStep localServerKey diffLocalServerStep_hstep]
    left
    rw [hm2keys]
    exact List.mem_append.mpr (Or.inl (List.mem_map_of_mem _ hs))
  have hremC : ∀ s ∈ remoteClients, clientRemoteKey s ∈
      (buildDiffMap remoteServers remoteClients localServer localClient).map (fun p => p.1) := by
    intro s hs
    rw [hMdef, foldl_assocStep_keys diffLocalClientStep localClientKey diffLocalClientStep_hstep]
    left
    rw [foldl_assocStep_keys diffLocalServerStep localServerKey diffLocalServerStep_hstep]
    left
    rw [hm2keys]
    exact List.mem_append.mpr (Or.inr (List.mem_map_of_mem _ hs))
  refine ⟨?_, hremS, hremC, hsubS, hsubC⟩
  rw [hEntLen]
  refine max_le ?_ ?_
  · rw [hMdef]
    calc remoteServers.length + remoteClients.length
        = (remoteClients.foldl diffRemoteClientStep
            (remoteServers.foldl diffRemoteServerStep [])).length := hm2len.symm
      _ ≤ (localServer.foldl diffLocalServerStep
            (remoteClients.foldl diffRemoteClientStep
              (remoteServers.foldl diffRemoteServerStep []))).length := hlen3
      _ ≤ _ := hlen4
  · have hLdisj : (localServer.map localServerKey).Disjoint (localClient.map localClientKey) := by
      intro a ha hb
      rw [List.mem_map] at ha hb
      obtain ⟨s, _, hsa⟩ := ha
      obtain ⟨c, _, hca⟩ := hb
      exact serverKey_ne_clientKey _ _ (hsa.trans hca.symm)
    have hlKeys : ((localServer.map localServerKey) ++ (localClient.map localClientKey)).Nodup :=
      List.Nodup.append hls hlc hLdisj
    have hsub : (localServer.map localServerKey ++ localClient.map localClientKey) ⊆
        (buildDiffMap remoteServers remoteClients localServer localClient).map (fun p => p.1) := by
      intro k hk
      rcases List.mem_append.mp hk with hk | hk
      · rw [List.mem_map] at hk
        obtain ⟨x, hx, rfl⟩ := hk
        exact hsubS x hx
      · rw [List.mem_map] at hk
        obtain ⟨x, hx, rfl⟩ := hk
        exact hsubC x hx
    have hle := (List.subperm_of_subset hlKeys hsub).length_le
    simpa using hle

theorem reconcile_no_drop_witness :
    ((([{ Id := some 2, Title := some (strL "B") }] : List ServerScript)).map serverRemoteKey).Nodup ∧
    max (1 + 0) (1 + 0) ≤
      (buildDiffEntries [{ Id := some 2, Title := some (strL "B") }] []
        [{ id := none, title := strL "C", filePath := strL "/p/new_C.js", script := {} }] []).length := by
  refine ⟨by decide, ?_⟩
  have h := reconcile_no_drop [{ Id := some 2, Title := some (strL "B") }] []
    [{ id := none, title := strL "C", filePath := strL "/p/new_C.js", script := {} }] []
    (by decide) (by decide) (by decide) (by decide)
  exact le_trans (by decide) h.1

/-- C3 (counterexample): two remote server records with no id and the same
title collide on the map key `server:X`, so one overwrites the other and the
output has fewer entries than the remote input — the unconditional claim
fails. -/
theorem reconcile_no_drop_counterexample :
    (buildDiffEntries
        [{ Id := none, Title := some (strL "X") }, { Id := none, Title := some (strL "X") }]
        [] [] []).length <
      max ((([{ Id := none, Title := some (strL "X") },
               { Id := none, Title := some (strL "X") }] : List ServerScript)).length
            + ([] : List Script).length)
          (([] : List LocalServerScript).length + ([] : List LocalClientScript).length) := by
  decide

theorem digitChar_mem_digits (d : Nat) : digitChar d ∈ strL "0123456789*" := by
  unfold digitChar
  repeat' split
  all_goals decide

theorem natToStrAux_subset (fuel : Nat) : ∀ n : Nat, ∀ c ∈ natToStrAux fuel n, c ∈ strL "0123456789*" := by
  induction fuel with
  | zero => intro n c hc; exact absurd hc (List.not_mem_nil c)
  | succ fuel ih =>
    intro n c hc
    unfold natToStrAux at hc
    split at hc
    · simp only [List.mem_singleton] at hc
      exact hc ▸ digitChar_mem_digits n
    · rcases List.mem_append.mp hc with h | h
      · exact ih (n / 10) c h
      · simp only [List.mem_singleton] at h
        exact h ▸ digitChar_mem_digits (n % 10)

theorem intToStr_subset (n : Int) : ∀ c ∈ intToStr n, c ∈ strL "-0123456789*" := by
  have hsub : ∀ c, c ∈ strL "0123456789*" → c ∈ strL "-0123456789*" := by
    intro c hc
    have he : strL "-0123456789*" = '-' :: strL "0123456789*" := rfl
    rw [he]
    exact List.mem_cons_of_mem _ hc
  intro c hc
  unfold intToStr at hc
  split at hc
  · rcases List.mem_cons.mp hc with h | h
    · exact h ▸ (by decide)
    · exact hsub c (natToStrAux_subset _ _ c h)
  · exact hsub c (natToStrAux_subset _ _ c hc)

theorem mem_collapseRuns (p : Char → Bool) (rep : Char) (s : Str) :
    ∀ prev c, c ∈ collapseRuns p rep prev s → c = rep ∨ c ∈ s := by
  induction s with
  | nil => intro prev c hc; exact absurd hc (List.not_mem_nil c)
  | cons a rest ih =>
    intro prev c hc
    unfold collapseRuns at hc
    split at hc
    · split at hc
      · rcases ih true c hc with h | h
        · exact Or.inl h
        · exact Or.inr (List.mem_cons_of_mem _ h)
      · rcases List.mem_cons.mp hc with h | h
        · exact Or.inl h
        · rcases ih true c h with h2 | h2
          · exact Or.inl h2
          · exact Or.inr (List.mem_cons_of_mem _ h2)
    · rcases List.mem_cons.mp hc with h | h
      · exact Or.inr (h ▸ List.mem_cons_self a rest)
      · rcases ih false c h with h2 | h2
        · exact Or.inl h2
        · exact Or.inr (List.mem_cons_of_mem _ h2)

theorem mem_trimCharEnds (t : Char) (s : Str) (c : Char) (h : c ∈ trimCharEnds t s) :
    c ∈ s := by
  unfold trimCharEnds at h
  rw [List.mem_reverse] at h
  have h2 := (List.dropWhile_sublist _).subset h
  rw [List.mem_reverse] at h2
  exact (List.dropWhile_sublist _).subset h2

theorem sanitizeFileName_no_slash (v : Str) : '/' ∉ sanitizeFileName v := by
  simp only [sanitizeFileName]
  split
  · decide
  · intro hmem
    have h4 := (List.take_sublist _ _).subset hmem
    have h3 := mem_trimCharEnds '_' _ _ h4
    rcases mem_collapseRuns _ '_' _ false '/' h3 with h | h
    · exact absurd h (by decide)
    · rcases mem_collapseRuns _ '_' _ false '/' h with h2 | h2
      · exact absurd h2 (by decide)
      · rw [List.mem_map] at h2
        obtain ⟨d, _, hd⟩ := h2
        by_cases hb : badFileChar d = true
        · rw [if_pos hb] at hd
          exact absurd hd (by decide)
        · rw [if_neg hb] at hd
          subst hd
          simp [badFileChar] at hb

theorem idOrNew_no_slash (v : Option Int) : '/' ∉ idOrNew v := by
  intro h
  unfold idOrNew at h
  rcases v with _ | n
  · exact absurd h (by decide)
  · exact absurd (intToStr_subset n '/' h) (by decide)

theorem serverScriptFileName_plain (script : ServerScript) :
    plainSeg (serverScriptFileName script) := by
  have hlen : 4 ≤ (serverScriptFileName script).length := by
    unfold serverScriptFileName
    simp only [List.length_append, List.length_cons]
    have h3 : (strL ".js").length = 3 := by decide
    omega
  refine ⟨?_, ?_, ?_, ?_⟩
  · intro h
    rw [h] at hlen
    simp at hlen
  · intro h
    rw [h] at hlen
    simp at hlen
  · intro h
    rw [h] at hlen
    simp at hlen
  · intro h
    unfold serverScriptFileName at h
    rcases List.mem_append.mp h with h | h
    · rcases List.mem_append.mp h with h | h
      · exact idOrNew_no_slash script.Id h
      · rcases List.mem_cons.mp h with h | h
        · exact absurd h (by decide)
        · exact sanitizeFileName_no_slash _ h
    · exact absurd h (by decide)

theorem clientScriptFileName_plain (script : Script) :
    plainSeg (clientScriptFileName script) := by
  have hlen : 4 ≤ (clientScriptFileName script).length := by
    unfold clientScriptFileName
    simp only [List.length_append, List.length_cons]
    have h3 : (strL ".js").length = 3 := by decide
    omega
  refine ⟨?_, ?_, ?_, ?_⟩
  · intro h
    rw [h] at hlen
    simp at hlen
  · intro h
    rw [h] at hlen
    simp at hlen
  · intro h
    rw [h] at hlen
    simp at hlen
  · intro h
    unfold clientScriptFileName at h
    rcases List.mem_append.mp h with h | h
    · rcases List.mem_append.mp h with h | h
      · exact idOrNew_no_slash script.Id h
      · rcases List.mem_cons.mp h with h | h
        · exact absurd h (by decide)
        · exact sanitizeFileName_no_slash _ h
    · exact absurd h (by decide)

theorem upsertWrittenEntries_plain (entries : List Dirent) (names : List Str)
    (hpre : ∀ d ∈ entries, plainSeg d.name) (hnames : ∀ nm ∈ names, plainSeg nm) :
    ∀ d ∈ upsertWrittenEntries entries names, plainSeg d.name := by
  intro d hd
  unfold upsertWrittenEntries at hd
  rcases List.mem_append.mp hd with h | h
  · exact hpre d (List.mem_filter.mp h).1
  · rw [List.mem_map] at h
    obtain ⟨nm, hnm, heq⟩ := h
    rw [← heq]
    exact hnames nm hnm

theorem pjoin_two_seg_ne (siteDir : Str) (hsite : goodAbsPath siteDir) (a b n m : Str)
    (ha : plainSeg a) (hb : plainSeg b) (hn : plainSeg n) (hm : plainSeg m)
    (hab : a ≠ b) :
    pjoin (pjoin siteDir a) n ≠ pjoin (pjoin siteDir b) m := by
  obtain ⟨sd, hne, hplain, hdef⟩ := hsite
  have hga : goodAbsPath (pjoin siteDir a) :=
    pjoin_goodAbs siteDir a ⟨sd, hne, hplain, hdef⟩ ha ▸
      goodAbsPath_append_seg siteDir a ⟨sd, hne, hplain, hdef⟩ ha
  have hgb : goodAbsPath (pjoin siteDir b) :=
    pjoin_goodAbs siteDir b ⟨sd, hne, hplain, hdef⟩ hb ▸
      goodAbsPath_append_seg siteDir b ⟨sd, hne, hplain, hdef⟩ hb
  have hja : pjoin (pjoin siteDir a) n = pjoin siteDir a ++ '/' :: n :=
    pjoin_goodAbs _ n hga hn
  have hjb : pjoin (pjoin siteDir b) m = pjoin siteDir b ++ '/' :: m :=
    pjoin_goodAbs _ m hgb hm
  have hsa : pjoin siteDir a = siteDir ++ '/' :: a :=
    pjoin_goodAbs siteDir a ⟨sd, hne, hplain, hdef⟩ ha
  have hsb : pjoin siteDir b = siteDir ++ '/' :: b :=
    pjoin_goodAbs siteDir b ⟨sd, hne, hplain, hdef⟩ hb
  intro heq
  rw [hja, hjb, hsa, hsb, hdef] at heq
  -- rewrite both sides as slash-joined plain segment lists
  have hone : ∀ x : Str, plainSeg x →
      ('/' :: intercalateC '/' sd) ++ '/' :: x = '/' :: intercalateC '/' (sd ++ [x]) := by
    intro x hx
    rw [intercalateC_append_singleton '/' sd x hne]
    rfl
  have htwo : ∀ x y : Str, plainSeg x → plainSeg y →
      (('/' :: intercalateC '/' sd) ++ '/' :: x) ++ '/' :: y =
        '/' :: intercalateC '/' ((sd ++ [x]) ++ [y]) := by
    intro x y hx hy
    rw [hone x hx, intercalateC_append_singleton '/' (sd ++ [x]) y (by simp)]
    rfl
  rw [htwo a n ha hn, htwo b m hb hm] at heq
  have hplains : ∀ x y : Str, plainSeg x → plainSeg y →
      ∀ s ∈ (sd ++ [x]) ++ [y], plainSeg s := by
    intro x y hx hy s hs
    rcases List.mem_append.mp hs with hs | hs
    · rcases List.mem_append.mp hs with hs | hs
      · exact hplain s hs
      · simp only [List.mem_singleton] at hs
        exact hs ▸ hx
    · simp only [List.mem_singleton] at hs
      exact hs ▸ hy
  have hsegs := goodAbsPath_segs_inj ((sd ++ [a]) ++ [n]) ((sd ++ [b]) ++ [m])
    (hplains a n ha hn) (hplains b m hb hm) (by simp) (by simp) heq
  have : sd ++ [a, n] = sd ++ [b, m] := by
    simpa using hsegs
  have h2 := List.append_cancel_left this
  simp only [List.cons.injEq] at h2
  exact hab h2.1

theorem pjoin_norm_id (dir : Str) (hg : goodAbsPath dir) (n : Str) (hn : plainSeg n) :
    pnormalize (pjoin dir n) = pjoin dir n := by
  rw [pjoin_goodAbs dir n hg hn]
  exact pnormalize_goodAbs _ (goodAbsPath_append_seg dir n hg hn)

theorem cleanup_not_delete_kept (directory : Str) (entries : List Dirent)
    (keepFiles : List Str) (p : Str) (hp : p ∈ keepFiles) (hnorm : pnormalize p = p) :
    p ∉ cleanupOrphanDeletions directory entries keepFiles := by
  intro hmem
  unfold cleanupOrphanDeletions at hmem
  rw [List.mem_map] at hmem
  obtain ⟨d, hd, hdeq⟩ := hmem
  rw [List.mem_filter] at hd
  have hcond := hd.2
  simp only [Bool.and_eq_true, decide_eq_true_eq] at hcond
  apply hcond.2
  rw [hdeq]
  exact hnorm ▸ List.mem_map_of_mem pnormalize hp

theorem cleanup_mem_shape (directory : Str) (entries : List Dirent) (keep : List Str)
    (p : Str) (hp : p ∈ cleanupOrphanDeletions directory entries keep) :
    ∃ d ∈ entries, p = pnormalize (pjoin directory d.name) := by
  unfold cleanupOrphanDeletions at hp
  rw [List.mem_map] at hp
  obtain ⟨d, hd, hdeq⟩ := hp
  exact ⟨d, (List.mem_filter.mp hd).1, hdeq.symm⟩

/-- C2: within `pull`, every file write precedes every orphan deletion (the
event list splits into an unlink-free prefix and a write-free suffix), and
no path returned by `writeServerScripts`/`writeClientScripts` is ever passed
to `unlink` by `cleanupOrphanFiles` — given a clean absolute site directory
and genuine single filenames in the pre-pull listings. -/
theorem pull_writes_precede_deletions (siteDir : Str) (siteData : SiteData)
    (preServer preClient : List Dirent)
    (hsite : goodAbsPath siteDir)
    (hpreS : ∀ d ∈ preServer, plainSeg d.name)
    (hpreC : ∀ d ∈ preClient, plainSeg d.name) :
    (∃ l1 l2, pullFsEvents siteDir siteData preServer preClient = l1 ++ l2 ∧
      (∀ e ∈ l1, e.isUnlink = false) ∧ (∀ e ∈ l2, e.isWrite = false)) ∧
    (∀ p ∈ (writeServerScriptsFiles (pjoin siteDir (strL "server-script"))
              siteData.serverScripts).map (fun q => q.1) ++
           (writeClientScriptsFiles (pjoin siteDir (strL "client-script"))
              siteData.clientScripts).map (fun q => q.1),
      FsEvent.unlinkEv p ∉ pullFsEvents siteDir siteData preServer preClient) := by
  have hsrvSeg : plainSeg (strL "server-script") := by decide
  have hcliSeg : plainSeg (strL "client-script") := by decide
  have hgs : goodAbsPath (pjoin siteDir (strL "server-script")) := by
    rw [pjoin_goodAbs siteDir _ hsite hsrvSeg]
    exact goodAbsPath_append_seg siteDir _ hsite hsrvSeg
  have hgc : goodAbsPath (pjoin siteDir (strL "client-script")) := by
    rw [pjoin_goodAbs siteDir _ hsite hcliSeg]
    exact goodAbsPath_append_seg siteDir _ hsite hcliSeg
  have hevents : pullFsEvents siteDir siteData preServer preClient =
      ([FsEvent.mkdirEv siteDir,
        FsEvent.writeEv (pjoin siteDir (strL "site-setting.json")),
        FsEvent.mkdirEv (pjoin siteDir (strL "server-script"))] ++
       (writeServerScriptsFiles (pjoin siteDir (strL "server-script"))
         siteData.serverScripts).map (fun p => FsEvent.writeEv p.1) ++
       [FsEvent.mkdirEv (pjoin siteDir (strL "client-script"))] ++
       (writeClientScriptsFiles (pjoin siteDir (strL "client-script"))
         siteData.clientScripts).map (fun p => FsEvent.writeEv p.1)) ++
      ((cleanupOrphanDeletions (pjoin siteDir (strL "server-script"))
          (upsertWrittenEntries preServer (siteData.serverScripts.map serverScriptFileName))
          ((writeServerScriptsFiles (pjoin siteDir (strL "server-script"))
            siteData.serverScripts).map (fun p => p.1))).map FsEvent.unlinkEv ++
       (cleanupOrphanDeletions (pjoin siteDir (strL "client-script"))
          (upsertWrittenEntries preClient (siteData.clientScripts.map clientScriptFileName))
          ((writeClientScriptsFiles (pjoin siteDir (strL "client-script"))
            siteData.clientScripts).map (fun p => p.1))).map FsEvent.unlinkEv ++
       [FsEvent.infoUpdateEv, FsEvent.lastSyncEv]) := by
    unfold pullFsEvents
    simp only [List.append_assoc]
  have hmapWrite : ∀ (l : List (Str × Str)) (e : FsEvent),
      e ∈ l.map (fun p => FsEvent.writeEv p.1) → e.isUnlink = false := by
    intro l e he
    rw [List.mem_map] at he
    obtain ⟨q, _, hq⟩ := he
    rw [← hq]
    rfl
  have hmapUnlink : ∀ (l : List Str) (e : FsEvent),
      e ∈ l.map FsEvent.unlinkEv → e.isWrite = false := by
    intro l e he
    rw [List.mem_map] at he
    obtain ⟨q, _, hq⟩ := he
    rw [← hq]
    rfl
  have hl1 : ∀ e ∈
      ([FsEvent.mkdirEv siteDir,
        FsEvent.writeEv (pjoin siteDir (strL "site-setting.json")),
        FsEvent.mkdirEv (pjoin siteDir (strL "server-script"))] ++
       (writeServerScriptsFiles (pjoin siteDir (strL "server-script"))
         siteData.serverScripts).map (fun p => FsEvent.writeEv p.1) ++
       [FsEvent.mkdirEv (pjoin siteDir (strL "client-script"))] ++
       (writeClientScriptsFiles (pjoin siteDir (strL "client-script"))
         siteData.clientScripts).map (fun p => FsEvent.writeEv p.1)),
      e.isUnlink = false := by
    intro e he
    rcases List.mem_append.mp he with he | he
    · rcases List.mem_append.mp he with he | he
      · rcases List.mem_append.mp he with he | he
        · rcases List.mem_cons.mp he with rfl | he
          · rfl
          rcases List.mem_cons.mp he with rfl | he
          · rfl
          rcases List.mem_cons.mp he with rfl | he
          · rfl
          cases he
        · exact hmapWrite _ e he
      · rcases List.mem_cons.mp he with rfl | he
        · rfl
        cases he
    · exact hmapWrite _ e he
  have hl2 : ∀ e ∈
      ((cleanupOrphanDeletions (pjoin siteDir (strL "server-script"))
          (upsertWrittenEntries preServer (siteData.serverScripts.map serverScriptFileName))
          ((writeServerScriptsFiles (pjoin siteDir (strL "server-script"))
            siteData.serverScripts).map (fun p => p.1))).map FsEvent.unlinkEv ++
       (cleanupOrphanDeletions (pjoin siteDir (strL "client-script"))
          (upsertWrittenEntries preClient (siteData.clientScripts.map clientScriptFileName))
          ((writeClientScriptsFiles (pjoin siteDir (strL "client-script"))
            siteData.clientScripts).map (fun p => p.1))).map FsEvent.unlinkEv ++
       [FsEvent.infoUpdateEv, FsEvent.lastSyncEv]),
      e.isWrite = false := by
    intro e he
    rcases List.mem_append.mp he with he | he
    · rcases List.mem_append.mp he with he | he
      · exact hmapUnlink _ e he
      · exact hmapUnlink _ e he
    · rcases List.mem_cons.mp he with rfl | he
      · rfl
      rcases List.mem_cons.mp he with rfl | he
      · rfl
      cases he
  refine ⟨⟨_, _, hevents, hl1, hl2⟩, ?_⟩
  intro p hp hmem
  rw [hevents] at hmem
  rcases List.mem_append.mp hmem with hm | hm
  · have := hl1 _ hm
    exact absurd this (by intro hcon; cases hcon)
  · have hmem2 : p ∈ cleanupOrphanDeletions (pjoin siteDir (strL "server-script"))
          (upsertWrittenEntries preServer (siteData.serverScripts.map serverScriptFileName))
          ((writeServerScriptsFiles (pjoin siteDir (strL "server-script"))
            siteData.serverScripts).map (fun p => p.1)) ∨
        p ∈ cleanupOrphanDeletions (pjoin siteDir (strL "client-script"))
          (upsertWrittenEntries preClient (siteData.clientScripts.map clientScriptFileName))
          ((writeClientScriptsFiles (pjoin siteDir (strL "client-script"))
            siteData.clientScripts).map (fun p => p.1)) := by
      rcases List.mem_append.mp hm with hm | hm
      · rcases List.mem_append.mp hm with hm | hm
        · rw [List.mem_map] at hm
          obtain ⟨q, hq, heq⟩ := hm
          cases heq
          exact Or.inl hq
        · rw [List.mem_map] at hm
          obtain ⟨q, hq, heq⟩ := hm
          cases heq
          exact Or.inr hq
      · rcases List.mem_cons.mp hm with hcon | hm
        · cases hcon
        rcases List.mem_cons.mp hm with hcon | hm
        · cases hcon
        cases hm
    rcases List.mem_append.mp hp with hpw | hpw
    · rw [List.mem_map] at hpw
      obtain ⟨q, hq, hpq⟩ := hpw
      unfold writeServerScriptsFiles at hq
      rw [List.mem_map] at hq
      obtain ⟨scr, hscr, hqdef⟩ := hq
      have hpdef : p = pjoin (pjoin siteDir (strL "server-script")) (serverScriptFileName scr) := by
        rw [← hpq, ← hqdef]
      have hpnorm : pnormalize p = p := by
        rw [hpdef]
        exact pjoin_norm_id _ hgs _ (serverScriptFileName_plain scr)
      rcases hmem2 with hdel | hdel
      · refine cleanup_not_delete_kept _ _ _ p ?_ hpnorm hdel
        unfold writeServerScriptsFiles
        rw [List.mem_map, hpdef]
        refine ⟨(pjoin (pjoin siteDir (strL "server-script")) (serverScriptFileName scr),
          writeServerScriptFileContent scr), ?_, rfl⟩
        rw [List.mem_map]
        exact ⟨scr, hscr, rfl⟩
      · obtain ⟨d, hd, hddef⟩ := cleanup_mem_shape _ _ _ p hdel
        have hdplain : plainSeg d.name := by
          refine upsertWrittenEntries_plain preClient _ hpreC ?_ d hd
          intro nm hnm
          rw [List.mem_map] at hnm
          obtain ⟨c, _, hc⟩ := hnm
          exact hc ▸ clientScriptFileName_plain c
        rw [pjoin_norm_id _ hgc _ hdplain] at hddef
        rw [hpdef] at hddef
        exact pjoin_two_seg_ne siteDir hsite (strL "server-script") (strL "client-script")
          (serverScriptFileName scr) d.name hsrvSeg hcliSeg
          (serverScriptFileName_plain scr) hdplain (by decide) hddef
    · rw [List.mem_map] at hpw
      obtain ⟨q, hq, hpq⟩ := hpw
      unfold writeClientScriptsFiles at hq
      rw [List.mem_map] at hq
      obtain ⟨scr, hscr, hqdef⟩ := hq
      have hpdef : p = pjoin (pjoin siteDir (strL "client-script")) (clientScriptFileName scr) := by
        rw [← hpq, ← hqdef]
      have hpnorm : pnormalize p = p := by
        rw [hpdef]
        exact pjoin_norm_id _ hgc _ (clientScriptFileName_plain scr)
      rcases hmem2 with hdel | hdel
      · obtain ⟨d, hd, hddef⟩ := cleanup_mem_shape _ _ _ p hdel
        have hdplain : plainSeg d.name := by
          refine upsertWrittenEntries_plain preServer _ hpreS ?_ d hd
          intro nm hnm
          rw [List.mem_map] at hnm
          obtain ⟨c, _, hc⟩ := hnm
          exact hc ▸ serverScriptFileName_plain c
        rw [pjoin_norm_id _ hgs _ hdplain] at hddef
        rw [hpdef] at hddef
        exact pjoin_two_seg_ne siteDir hsite (strL "client-script") (strL "server-script")
          (clientScriptFileName scr) d.name hcliSeg hsrvSeg
          (clientScriptFileName_plain scr) hdplain (by decide) hddef
      · refine cleanup_not_delete_kept _ _ _ p ?_ hpnorm hdel
        unfold writeClientScriptsFiles
        rw [List.mem_map, hpdef]
        refine ⟨(pjoin (pjoin siteDir (strL "client-script")) (clientScriptFileName scr),
          writeScriptFileContent scr), ?_, rfl⟩
        rw [List.mem_map]
        exact ⟨scr, hscr, rfl⟩

theorem pull_writes_precede_deletions_witness :
    goodAbsPath (strL "/w/s") ∧
    (∀ p ∈ (writeServerScriptsFiles (pjoin (strL "/w/s") (strL "server-script"))
              [{ Id := some 1, Title := some (strL "A") }]).map (fun q => q.1) ++
           (writeClientScriptsFiles (pjoin (strL "/w/s") (strL "client-script"))
              ([] : List Script)).map (fun q => q.1),
      FsEvent.unlinkEv p ∉ pullFsEvents (strL "/w/s")
        { serverScripts := [{ Id := some 1, Title := some (strL "A") }] }
        [⟨strL "2_B.js", true⟩] []) := by
  have hg : goodAbsPath (strL "/w/s") := ⟨[strL "w", strL "s"], by decide, by decide, by decide⟩
  have h := pull_writes_precede_deletions (strL "/w/s")
    { serverScripts := [{ Id := some 1, Title := some (strL "A") }] }
    [⟨strL "2_B.js", true⟩] [] hg (by decide) (by decide)
  exact ⟨hg, h.2⟩

theorem assocGet_assocSet_self {α : Type} (m : List (Str × α)) (k : Str) (v : α) :
    assocGet (assocSet m k v) k = some v := by
  induction m with
  | nil => simp [assocSet, assocGet]
  | cons p m ih =>
    by_cases hp : p.1 = k
    · simp [assocSet, assocGet, hp]
    · simp only [assocSet, if_neg hp]
      unfold assocGet
      rw [List.find?_cons_of_neg _ (by simpa using hp)]
      exact ih

theorem assocGet_assocSet_ne {α : Type} (m : List (Str × α)) (k : Str) (v : α)
    (k2 : Str) (h : k2 ≠ k) :
    assocGet (assocSet m k v) k2 = assocGet m k2 := by
  induction m with
  | nil =>
    unfold assocSet assocGet
    rw [List.find?_cons_of_neg _ (by simpa using fun hc => h hc.symm)]
  | cons p m ih =>
    by_cases hp : p.1 = k
    · simp only [assocSet, if_pos hp]
      unfold assocGet
      rw [List.find?_cons_of_neg _ (by simpa using fun hc => h hc.symm),
        List.find?_cons_of_neg _ (by simpa using fun hc => h (hp.symm.trans hc).symm)]
    · simp only [assocSet, if_neg hp]
      unfold assocGet
      by_cases hk2 : p.1 = k2
      · rw [List.find?_cons_of_pos _ (by simpa using hk2),
          List.find?_cons_of_pos _ (by simpa using hk2)]
      · rw [List.find?_cons_of_neg _ (by simpa using hk2),
          List.find?_cons_of_neg _ (by simpa using hk2)]
        exact ih

theorem assocGet_boolFold_not_mem (ps : List (Str × Bool)) (m : Meta) (k : Str)
    (h : k ∉ ps.map (fun p => p.1)) :
    assocGet (ps.foldl (fun m2 p => assocSet m2 p.1 (JsValue.bool p.2)) m) k =
      assocGet m k := by
  induction ps generalizing m with
  | nil => rfl
  | cons q rest ih =>
    have hk : k ∉ rest.map (fun p => p.1) := by
      intro hc
      exact h (List.mem_cons_of_mem _ hc)
    have hq : k ≠ q.1 := by
      intro hc
      exact h (hc ▸ List.mem_cons_self _ _)
    rw [List.foldl_cons, ih _ hk, assocGet_assocSet_ne _ _ _ _ hq]

theorem assocGet_boolFold_mem (ps : List (Str × Bool)) (m : Meta) (k : Str) (b : Bool)
    (hmem : (k, b) ∈ ps) (hnodup : (ps.map (fun p => p.1)).Nodup) :
    assocGet (ps.foldl (fun m2 p => assocSet m2 p.1 (JsValue.bool p.2)) m) k =
      some (JsValue.bool b) := by
  induction ps generalizing m with
  | nil => exact absurd hmem (List.not_mem_nil _)
  | cons q rest ih =>
    rw [List.map_cons, List.nodup_cons] at hnodup
    rcases List.mem_cons.mp hmem with heq | hmem2
    · have hk : k ∉ rest.map (fun p => p.1) := by
        rw [← heq] at hnodup
        exact hnodup.1
      rw [List.foldl_cons, assocGet_boolFold_not_mem rest _ k hk, ← heq,
        assocGet_assocSet_self]
    · rw [List.foldl_cons]
      exact ih _ hmem2 hnodup.2

theorem takeWhile_until_colon (key w : Str) (hk : ':' ∉ key) :
    (key ++ ':' :: w).takeWhile (fun c => c ≠ ':') = key := by
  induction key with
  | nil => simp [List.takeWhile_cons]
  | cons a rest ih =>
    have ha : a ≠ ':' := fun hc => hk (by simp [hc])
    have hrest : ':' ∉ rest := fun hc => hk (List.mem_cons_of_mem _ hc)
    rw [List.cons_append, List.takeWhile_cons, if_pos (by simpa using ha), ih hrest]

theorem dropWhile_until_colon (key w : Str) (hk : ':' ∉ key) :
    (key ++ ':' :: w).dropWhile (fun c => c ≠ ':') = ':' :: w := by
  induction key with
  | nil => simp [List.dropWhile_cons]
  | cons a rest ih =>
    have ha : a ≠ ':' := fun hc => hk (by simp [hc])
    have hrest : ':' ∉ rest := fun hc => hk (List.mem_cons_of_mem _ hc)
    rw [List.cons_append, List.dropWhile_cons, if_pos (by simpa using ha), ih hrest]

theorem trimRightStr_eq_self_last (s : Str) (c : Char) (h : isWsChar c = false) :
    trimRightStr (s ++ [c]) = s ++ [c] := by
  unfold trimRightStr
  rw [List.reverse_append]
  simp only [List.reverse_singleton, List.singleton_append, List.dropWhile_cons, h]
  simp

theorem trimLeftStr_plsMark (y : Str) : trimLeftStr (plsMark ++ y) = plsMark ++ y := by
  have h : plsMark ++ y = '/' :: (strL "/ @pleasanter-" ++ y) := rfl
  rw [h, trimLeftStr_cons_of_not_ws _ _ (by decide)]

theorem headerline_assoc (key render : Str) :
    plsMark ++ key ++ ':' :: ' ' :: render =
      (plsMark ++ key ++ [':']) ++ (' ' :: render) := by
  simp

theorem trim_headerline (key render : Str) :
    trimStr (plsMark ++ key ++ ':' :: ' ' :: render) =
      if trimRightStr (' ' :: render) = [] then plsMark ++ key ++ [':']
      else plsMark ++ key ++ ':' :: trimRightStr (' ' :: render) := by
  have hA : trimRightStr (plsMark ++ key ++ [':']) = plsMark ++ key ++ [':'] := by
    have h2 : plsMark ++ key ++ [':'] = (plsMark ++ key) ++ [':'] := by simp
    rw [h2, trimRightStr_eq_self_last (plsMark ++ key) ':' (by decide)]
  by_cases hw : trimRightStr (' ' :: render) = []
  · rw [if_pos hw, trimStr, headerline_assoc, trimRightStr_append_of_nil _ _ hw, hA]
    have h3 : plsMark ++ key ++ [':'] = plsMark ++ (key ++ [':']) := by simp
    rw [h3, trimLeftStr_plsMark]
  · rw [if_neg hw, trimStr, headerline_assoc, trimRightStr_append_of_ne_nil _ _ hw]
    have h3 : (plsMark ++ key ++ [':']) ++ trimRightStr (' ' :: render) =
        plsMark ++ (key ++ ':' :: trimRightStr (' ' :: render)) := by simp
    rw [h3, trimLeftStr_plsMark]
    simp

theorem searchHeader_pos0 (t : Str) (r : Str × Str) (hc : t ≠ [])
    (hm : matchHeaderAt t = some r) : searchHeader t = some r := by
  cases t with
  | nil => exact absurd rfl hc
  | cons c rest =>
    unfold searchHeader
    rw [hm]

theorem matchHeaderAt_shape (key w : Str) (hkey0 : key ≠ []) (hkey1 : ':' ∉ key)
    (hw : w ≠ []) :
    matchHeaderAt (plsMark ++ (key ++ ':' :: w)) = some (key, trimStr w) := by
  unfold matchHeaderAt
  rw [if_pos (strStartsWith_append plsMark _)]
  simp only [List.drop_left]
  rw [takeWhile_until_colon key w hkey1, dropWhile_until_colon key w hkey1]
  rw [if_pos ⟨hkey0, by simp, by simpa using hw⟩]
  rfl

theorem headerUpd_line_set (m : Meta) (key render : Str)
    (hkey0 : key ≠ []) (hkey1 : ':' ∉ key)
    (hw : trimRightStr (' ' :: render) ≠ []) :
    lineUpd m (plsMark ++ key ++ ':' :: ' ' :: render) =
      assocSet m key (parseValue (trimStr (trimRightStr (' ' :: render)))) := by
  unfold lineUpd
  rw [trim_headerline, if_neg hw]
  have h3 : plsMark ++ key ++ ':' :: trimRightStr (' ' :: render) =
      plsMark ++ (key ++ ':' :: trimRightStr (' ' :: render)) := by simp
  rw [h3]
  unfold headerUpd
  rw [searchHeader_pos0 _ (key, trimStr (trimRightStr (' ' :: render)))
    (by simp [plsMark, strL]) (matchHeaderAt_shape key _ hkey0 hkey1 hw)]

theorem headerUpd_value_line (m : Meta) (key render : Str) (k : Str)
    (hkey0 : key ≠ []) (hkey1 : ':' ∉ key)
    (hcase2 : searchHeader (plsMark ++ key ++ [':']) = none)
    (hne : k ≠ key) :
    assocGet (lineUpd m (plsMark ++ key ++ ':' :: ' ' :: render)) k = assocGet m k := by
  by_cases hw : trimRightStr (' ' :: render) = []
  · unfold lineUpd
    rw [trim_headerline, if_pos hw]
    unfold headerUpd
    rw [hcase2]
  · rw [headerUpd_line_set m key render hkey0 hkey1 hw]
    exact assocGet_assocSet_ne m key _ k hne

theorem trim_headerline_starts (key render : Str) :
    strStartsWith (trimStr (plsMark ++ key ++ ':' :: ' ' :: render)) plsMark = true := by
  rw [trim_headerline]
  by_cases hw : trimRightStr (' ' :: render) = []
  · rw [if_pos hw]
    have h3 : plsMark ++ key ++ [':'] = plsMark ++ (key ++ [':']) := by simp
    rw [h3]
    exact strStartsWith_append plsMark _
  · rw [if_neg hw]
    have h3 : plsMark ++ key ++ ':' :: trimRightStr (' ' :: render) =
        plsMark ++ (key ++ ':' :: trimRightStr (' ' :: render)) := by simp
    rw [h3]
    exact strStartsWith_append plsMark _

theorem splitOnC_sep_push (c : Char) (x rest : Str) (hx : c ∉ x) :
    splitOnC c (x ++ c :: rest) = x :: splitOnC c rest := by
  rw [splitOnC_append_no_sep c x _ hx, splitOnC_cons_sep]
  simp

theorem splitOnC_intercalate_append (c : Char) (hs : List Str) (rest : Str)
    (hne : hs ≠ []) (hnl : ∀ l ∈ hs, c ∉ l) :
    splitOnC c (intercalateC c hs ++ c :: rest) = hs ++ splitOnC c rest := by
  induction hs with
  | nil => exact absurd rfl hne
  | cons x tail ih =>
    cases tail with
    | nil =>
      have hx : c ∉ x := hnl x (by simp)
      simpa [intercalateC] using splitOnC_sep_push c x rest hx
    | cons y ys =>
      have hx : c ∉ x := hnl x (by simp)
      have hstep : intercalateC c (x :: y :: ys) ++ c :: rest =
          x ++ c :: (intercalateC c (y :: ys) ++ c :: rest) := by
        show (x ++ c :: intercalateC c (y :: ys)) ++ c :: rest = _
        simp
      rw [hstep, splitOnC_sep_push c x _ hx,
        ih (by simp) (fun l hl => hnl l (List.mem_cons_of_mem _ hl))]
      rfl

theorem splitOnC_headD (c : Char) (s : Str) :
    (splitOnC c s).headD [] = s.takeWhile (fun x => x ≠ c) := by
  induction s with
  | nil => rfl
  | cons a rest ih =>
    by_cases ha : a = c
    · subst ha
      rw [splitOnC_cons_sep]
      simp [List.takeWhile_cons]
    · simp only [splitOnC, if_neg ha]
      rcases hs : splitOnC c rest with _ | ⟨x, xs⟩
      · exact absurd hs (splitOnC_ne_nil c rest)
      · rw [hs] at ih
        simp only [List.headD_cons] at ih
        simp only [List.headD_cons, List.takeWhile_cons]
        rw [if_pos (by simpa using ha), ih]

theorem splitOnC_head_cons (c : Char) (s : Str) :
    splitOnC c s = s.takeWhile (fun x => x ≠ c) :: (splitOnC c s).tail := by
  rcases hs : splitOnC c s with _ | ⟨x, xs⟩
  · exact absurd hs (splitOnC_ne_nil c s)
  · have h := splitOnC_headD c s
    rw [hs] at h
    simp only [List.headD_cons] at h
    rw [← h]
    rfl

theorem trimStr_cons_not_ws (c : Char) (t : Str) (h : isWsChar c = false) :
    ∃ u, trimStr (c :: t) = c :: u := by
  by_cases hrt : trimRightStr t = []
  · have h1 : trimRightStr (c :: t) = trimRightStr [c] := by
      have : (c :: t : Str) = [c] ++ t := rfl
      rw [this, trimRightStr_append_of_nil _ _ hrt]
    have h2 : trimRightStr [c] = [c] := by
      have : ([c] : Str) = [] ++ [c] := rfl
      rw [this, trimRightStr_eq_self_last [] c h]
    refine ⟨[], ?_⟩
    rw [trimStr, h1, h2, trimLeftStr_cons_of_not_ws c [] h]
  · have h1 : trimRightStr (c :: t) = c :: trimRightStr t := by
      have : (c :: t : Str) = [c] ++ t := rfl
      rw [this, trimRightStr_append_of_ne_nil _ _ hrt]
      rfl
    refine ⟨trimRightStr t, ?_⟩
    rw [trimStr, h1, trimLeftStr_cons_of_not_ws c _ h]

theorem dropWhile_head_not (p : Char → Bool) (l : List Char) (c : Char) (u : Str)
    (h : l.dropWhile p = c :: u) : p c = false := by
  induction l with
  | nil => cases h
  | cons a rest ih =>
    rw [List.dropWhile_cons] at h
    split at h
    · exact ih h
    · rename_i hpa
      cases h
      simpa using hpa

theorem head_not_ws_of_trim_eq (c : Char) (t : Str) (h : trimStr (c :: t) = c :: t) :
    isWsChar c = false :=
  dropWhile_head_not isWsChar (trimRightStr (c :: t)) c t h

theorem parseStep_header (st : ParseState) (line : Str)
    (hin : st.inMetadata = true)
    (hstart : strStartsWith (trimStr line) plsMark = true) :
    parseStep st line = { st with metadata := lineUpd st.metadata line } := by
  unfold parseStep
  rw [if_pos ⟨by simp [hin], hstart⟩]
  unfold lineUpd headerUpd
  rcases hsr : searchHeader (trimStr line) with _ | kv
  · simp only [hsr]
  · simp only [hsr]

theorem parseStep_blank (st : ParseState) (line : Str)
    (hin : st.inMetadata = true) (htr : trimStr line = []) :
    parseStep st line = st := by
  unfold parseStep
  rw [if_neg ?c1]
  · rw [if_pos ⟨htr, by simp [hin]⟩]
  case c1 =>
    rintro ⟨-, hstart⟩
    rw [htr] at hstart
    exact absurd hstart (by decide)

theorem parseStep_body (st : ParseState) (line : Str)
    (hstart : strStartsWith (trimStr line) plsMark = false)
    (htr : trimStr line ≠ []) :
    parseStep st line =
      { st with inMetadata := false, bodyLines := st.bodyLines ++ [line] } := by
  unfold parseStep
  rw [if_neg ?c1]
  · rw [if_neg ?c2]
    case c2 =>
      rintro ⟨h, -⟩
      exact htr h
  case c1 =>
    rintro ⟨-, h⟩
    rw [hstart] at h
    cases h

theorem parseStep_no_meta (st : ParseState) (line : Str) (hin : st.inMetadata = false) :
    parseStep st line =
      { st with inMetadata := false, bodyLines := st.bodyLines ++ [line] } := by
  unfold parseStep
  rw [if_neg ?c1]
  · rw [if_neg ?c2]
    case c2 =>
      rintro ⟨-, h⟩
      rw [hin] at h
      cases h
  case c1 =>
    rintro ⟨h, -⟩
    rw [hin] at h
    cases h

theorem parseFold_header_block (hs : List Str) (rest : List Str) (m : Meta)
    (hstart : ∀ l ∈ hs, strStartsWith (trimStr l) plsMark = true) :
    (hs ++ rest).foldl parseStep ⟨m, [], true⟩ =
      rest.foldl parseStep ⟨hs.foldl lineUpd m, [], true⟩ := by
  induction hs generalizing m with
  | nil => rfl
  | cons x tail ih =>
    rw [List.cons_append, List.foldl_cons,
      parseStep_header ⟨m, [], true⟩ x rfl (hstart x (by simp))]
    exact ih (lineUpd m x) (fun l hl => hstart l (List.mem_cons_of_mem _ hl))

theorem parseFold_after_body (ls : List Str) (m : Meta) (acc : List Str) :
    ls.foldl parseStep ⟨m, acc, false⟩ = ⟨m, acc ++ ls, false⟩ := by
  induction ls generalizing acc with
  | nil => simp
  | cons x tail ih =>
    rw [List.foldl_cons, parseStep_no_meta ⟨m, acc, false⟩ x rfl]
    have h := ih (acc ++ [x])
    simpa using h

theorem parseFile_content_split (hs : List Str) (b : Str)
    (hne : hs ≠ []) (hnl : ∀ l ∈ hs, '\n' ∉ l)
    (hstart : ∀ l ∈ hs, strStartsWith (trimStr l) plsMark = true)
    (hbt : trimStr b = b)
    (hbh : strStartsWith (trimStr (b.takeWhile (fun x => x ≠ '\n'))) plsMark = false) :
    parseFile (intercalateC '\n' hs ++ strL "\n\n" ++ b) = (hs.foldl lineUpd [], b) := by
  unfold parseFile
  have hassoc : intercalateC '\n' hs ++ strL "\n\n" ++ b =
      intercalateC '\n' hs ++ '\n' :: ('\n' :: b) := by
    rw [List.append_assoc]
    rfl
  rw [hassoc, splitOnC_intercalate_append '\n' hs _ hne hnl, splitOnC_cons_sep]
  unfold parseFileLines
  rw [parseFold_header_block hs _ [] hstart, List.foldl_cons,
    parseStep_blank _ [] rfl rfl]
  cases hb : b with
  | nil =>
    rw [show splitOnC '\n' ([] : Str) = [[]] from rfl, List.foldl_cons,
      parseStep_blank _ [] rfl rfl, List.foldl_nil]
    rfl
  | cons c t =>
    have hws : isWsChar c = false := head_not_ws_of_trim_eq c t (hb ▸ hbt)
    have hcnl : c ≠ '\n' := by
      intro hc
      rw [hc] at hws
      exact absurd hws (by decide)
    have hl1 : (c :: t : Str).takeWhile (fun x => x ≠ '\n') =
        c :: t.takeWhile (fun x => x ≠ '\n') := by
      rw [List.takeWhile_cons, if_pos (by simpa using hcnl)]
    obtain ⟨u, hu⟩ := trimStr_cons_not_ws c (t.takeWhile (fun x => x ≠ '\n')) hws
    have hstart1 : strStartsWith
        (trimStr ((c :: t : Str).takeWhile (fun x => x ≠ '\n'))) plsMark = false := by
      rw [← hb]
      exact hbh
    have htr1 : trimStr ((c :: t : Str).takeWhile (fun x => x ≠ '\n')) ≠ [] := by
      rw [hl1, hu]
      simp
    rw [splitOnC_head_cons '\n' (c :: t), List.foldl_cons,
      parseStep_body _ _ hstart1 htr1, parseFold_after_body]
    have hbody : (([] : List Str) ++ [(c :: t : Str).takeWhile (fun x => x ≠ '\n')]) ++
        (splitOnC '\n' (c :: t)).tail = splitOnC '\n' (c :: t) := by
      rw [List.nil_append, List.singleton_append]
      exact (splitOnC_head_cons '\n' (c :: t)).symm
    show (_, trimStr (intercalateC '\n' _)) = _
    rw [hbody, intercalateC_splitOnC, ← hb, hbt]

theorem lineUpd_flag_fold (ps : List (Str × Bool)) (m : Meta)
    (hk : ∀ p ∈ ps, p.1 ≠ [] ∧ ':' ∉ p.1) :
    (ps.map (fun p => plsMark ++ p.1 ++ strL ": true")).foldl lineUpd m =
      ps.foldl (fun m2 p => assocSet m2 p.1 (JsValue.bool true)) m := by
  induction ps generalizing m with
  | nil => rfl
  | cons q rest ih =>
    rw [List.map_cons, List.foldl_cons, List.foldl_cons]
    have hq := hk q (List.mem_cons_self _ _)
    have h1 : lineUpd m (plsMark ++ q.1 ++ strL ": true") =
        assocSet m q.1 (JsValue.bool true) := by
      have hshape : plsMark ++ q.1 ++ strL ": true" =
          plsMark ++ q.1 ++ ':' :: ' ' :: strL "true" := rfl
      rw [hshape, headerUpd_line_set m q.1 (strL "true") hq.1 hq.2 (by decide)]
      have hval : parseValue (trimStr (trimRightStr (' ' :: strL "true"))) =
          JsValue.bool true := by decide
      rw [hval]
    rw [h1]
    exact ih _ (fun p hp => hk p (List.mem_cons_of_mem _ hp))

theorem lineUpd_bool_line (m : Meta) (key : Str) (b : Bool)
    (hkey0 : key ≠ []) (hkey1 : ':' ∉ key) :
    lineUpd m (plsMark ++ key ++ ':' :: ' ' :: renderBool b) =
      assocSet m key (JsValue.bool b) := by
  cases b
  · rw [headerUpd_line_set m key _ hkey0 hkey1 (by decide)]
    have hval : parseValue (trimStr (trimRightStr (' ' :: renderBool false))) =
        JsValue.bool false := by decide
    rw [hval]
  · rw [headerUpd_line_set m key _ hkey0 hkey1 (by decide)]
    have hval : parseValue (trimStr (trimRightStr (' ' :: renderBool true))) =
        JsValue.bool true := by decide
    rw [hval]

theorem lineUpd_boolpair_fold (ps : List (Str × Bool)) (m : Meta)
    (hk : ∀ p ∈ ps, p.1 ≠ [] ∧ ':' ∉ p.1) :
    (ps.map (fun p => plsMark ++ p.1 ++ ':' :: ' ' :: renderBool p.2)).foldl lineUpd m =
      ps.foldl (fun m2 p => assocSet m2 p.1 (JsValue.bool p.2)) m := by
  induction ps generalizing m with
  | nil => rfl
  | cons q rest ih =>
    rw [List.map_cons, List.foldl_cons, List.foldl_cons]
    have hq := hk q (List.mem_cons_self _ _)
    rw [lineUpd_bool_line m q.1 q.2 hq.1 hq.2]
    exact ih _ (fun p hp => hk p (List.mem_cons_of_mem _ hp))

theorem newline_not_mem_renderOptInt (v : Option Int) : '\n' ∉ renderOptInt v := by
  intro h
  rcases v with _ | n
  · exact absurd h (by decide)
  · exact absurd (intToStr_subset n '\n' h) (by decide)

theorem assocGet_server_prelude_none (r : ServerScript) (k : Str)
    (hk1 : k ≠ strL "id") (hk2 : k ≠ strL "title") (hk3 : k ≠ strL "name") :
    assocGet (([strL "// @pleasanter-id: " ++ renderOptInt r.Id,
      strL "// @pleasanter-title: " ++ renderOptStr r.Title,
      strL "// @pleasanter-name: " ++ renderOptStr r.Name] : List Str).foldl lineUpd []) k
      = none := by
  rw [List.foldl_cons, List.foldl_cons, List.foldl_cons, List.foldl_nil]
  have e1 : strL "// @pleasanter-id: " ++ renderOptInt r.Id =
      plsMark ++ strL "id" ++ ':' :: ' ' :: renderOptInt r.Id := rfl
  have e2 : strL "// @pleasanter-title: " ++ renderOptStr r.Title =
      plsMark ++ strL "title" ++ ':' :: ' ' :: renderOptStr r.Title := rfl
  have e3 : strL "// @pleasanter-name: " ++ renderOptStr r.Name =
      plsMark ++ strL "name" ++ ':' :: ' ' :: renderOptStr r.Name := rfl
  rw [e1, e2, e3]
  rw [headerUpd_value_line _ (strL "name") _ k (by decide) (by decide) (by decide) hk3]
  rw [headerUpd_value_line _ (strL "title") _ k (by decide) (by decide) (by decide) hk2]
  rw [headerUpd_value_line _ (strL "id") _ k (by decide) (by decide) (by decide) hk1]
  rfl

theorem serverHookKeys_facts : ∀ k ∈ serverHookKeys, k ≠ [] ∧ ':' ∉ k ∧ '\n' ∉ k ∧
    k ≠ strL "id" ∧ k ≠ strL "title" ∧ k ≠ strL "name" := by decide

theorem serverHookKeys_nodup : serverHookKeys.Nodup := by decide

theorem serverHooks_key_mem (r : ServerScript) (p : Str × Bool) (hp : p ∈ serverHooks r) :
    p.1 ∈ serverHookKeys := by
  have h : p.1 ∈ (serverHooks r).map (fun q => q.1) := List.mem_map_of_mem _ hp
  exact h

theorem clientFlagPairs_key_mem (c : Script) (p : Str × Bool) (hp : p ∈ clientFlagPairs c) :
    p.1 ∈ [strL "all", strL "new", strL "edit", strL "index", strL "disabled"] := by
  have h : p.1 ∈ (clientFlagPairs c).map (fun q => q.1) := List.mem_map_of_mem _ hp
  exact h

theorem clientFlagKeys_facts :
    ∀ k ∈ [strL "all", strL "new", strL "edit", strL "index", strL "disabled"],
      k ≠ [] ∧ ':' ∉ k ∧ '\n' ∉ k := by decide

theorem newline_not_mem_renderBool (b : Bool) : '\n' ∉ renderBool b := by
  cases b <;> decide

theorem generateServer_line_cases (r : ServerScript) (l : Str)
    (hl : l ∈ generateServerScriptMetadataLines r) :
    l = plsMark ++ strL "id" ++ ':' :: ' ' :: renderOptInt r.Id ∨
    l = plsMark ++ strL "title" ++ ':' :: ' ' :: renderOptStr r.Title ∨
    l = plsMark ++ strL "name" ++ ':' :: ' ' :: renderOptStr r.Name ∨
    ∃ p, p ∈ (serverHooks r).filter (fun q => q.2) ∧
      l = plsMark ++ p.1 ++ ':' :: ' ' :: strL "true" := by
  unfold generateServerScriptMetadataLines at hl
  rcases List.mem_append.mp hl with h3 | hmap
  · rcases List.mem_cons.mp h3 with h | h3
    · exact Or.inl h
    rcases List.mem_cons.mp h3 with h | h3
    · exact Or.inr (Or.inl h)
    rcases List.mem_cons.mp h3 with h | h3
    · exact Or.inr (Or.inr (Or.inl h))
    · exact absurd h3 (List.not_mem_nil _)
  · rcases List.mem_map.mp hmap with ⟨p, hp, hle⟩
    exact Or.inr (Or.inr (Or.inr ⟨p, hp, hle.symm⟩))

theorem generateServer_lines_nl_free (r : ServerScript)
    (ht : '\n' ∉ renderOptStr r.Title) (hn : '\n' ∉ renderOptStr r.Name) :
    ∀ l ∈ generateServerScriptMetadataLines r, '\n' ∉ l := by
  intro l hl hmem
  rcases generateServer_line_cases r l hl with h | h | h | ⟨p, hp, h⟩
  · rw [h] at hmem
    rcases List.mem_append.mp hmem with hL | hR
    · exact absurd hL (by decide)
    rcases List.mem_cons.mp hR with hc | hR
    · exact absurd hc (by decide)
    rcases List.mem_cons.mp hR with hc | hR
    · exact absurd hc (by decide)
    · exact absurd hR (newline_not_mem_renderOptInt r.Id)
  · rw [h] at hmem
    rcases List.mem_append.mp hmem with hL | hR
    · exact absurd hL (by decide)
    rcases List.mem_cons.mp hR with hc | hR
    · exact absurd hc (by decide)
    rcases List.mem_cons.mp hR with hc | hR
    · exact absurd hc (by decide)
    · exact absurd hR ht
  · rw [h] at hmem
    rcases List.mem_append.mp hmem with hL | hR
    · exact absurd hL (by decide)
    rcases List.mem_cons.mp hR with hc | hR
    · exact absurd hc (by decide)
    rcases List.mem_cons.mp hR with hc | hR
    · exact absurd hc (by decide)
    · exact absurd hR hn
  · rw [h] at hmem
    rcases List.mem_append.mp hmem with hL | hR
    · rcases List.mem_append.mp hL with hL1 | hL2
      · exact absurd hL1 (by decide)
      · have hk := serverHooks_key_mem r p (List.mem_of_mem_filter hp)
        exact absurd hL2 (serverHookKeys_facts p.1 hk).2.2.1
    rcases List.mem_cons.mp hR with hc | hR
    · exact absurd hc (by decide)
    rcases List.mem_cons.mp hR with hc | hR
    · exact absurd hc (by decide)
    · exact absurd hR (by decide)

theorem generateServer_lines_start (r : ServerScript) :
    ∀ l ∈ generateServerScriptMetadataLines r,
      strStartsWith (trimStr l) plsMark = true := by
  intro l hl
  rcases generateServer_line_cases r l hl with h | h | h | ⟨_, _, h⟩
  · rw [h]; exact trim_headerline_starts _ _
  · rw [h]; exact trim_headerline_starts _ _
  · rw [h]; exact trim_headerline_starts _ _
  · rw [h]; exact trim_headerline_starts _ _

theorem generateClient_line_cases (c : Script) (l : Str)
    (hl : l ∈ generateScriptMetadataLines c) :
    l = plsMark ++ strL "id" ++ ':' :: ' ' :: renderOptInt c.Id ∨
    l = plsMark ++ strL "title" ++ ':' :: ' ' :: renderOptStr c.Title ∨
    ∃ p, p ∈ clientFlagPairs c ∧
      l = plsMark ++ p.1 ++ ':' :: ' ' :: renderBool p.2 := by
  unfold generateScriptMetadataLines at hl
  rcases List.mem_cons.mp hl with h | hl
  · exact Or.inl h
  rcases List.mem_cons.mp hl with h | hl
  · exact Or.inr (Or.inl h)
  rcases List.mem_cons.mp hl with h | hl
  · exact Or.inr (Or.inr ⟨(strL "all", c.ScriptAll), List.mem_cons_self _ _, h⟩)
  rcases List.mem_cons.mp hl with h | hl
  · exact Or.inr (Or.inr ⟨(strL "new", c.ScriptNew),
      List.mem_cons_of_mem _ (List.mem_cons_self _ _), h⟩)
  rcases List.mem_cons.mp hl with h | hl
  · exact Or.inr (Or.inr ⟨(strL "edit", c.ScriptEdit),
      List.mem_cons_of_mem _ (List.mem_cons_of_mem _ (List.mem_cons_self _ _)), h⟩)
  rcases List.mem_cons.mp hl with h | hl
  · exact Or.inr (Or.inr ⟨(strL "index", c.ScriptIndex),
      List.mem_cons_of_mem _ (List.mem_cons_of_mem _
        (List.mem_cons_of_mem _ (List.mem_cons_self _ _))), h⟩)
  rcases List.mem_cons.mp hl with h | hl
  · exact Or.inr (Or.inr ⟨(strL "disabled", c.Disabled),
      List.mem_cons_of_mem _ (List.mem_cons_of_mem _ (List.mem_cons_of_mem _
        (List.mem_cons_of_mem _ (List.mem_cons_self _ _)))), h⟩)
  · exact absurd hl (List.not_mem_nil _)

theorem generateClient_lines_nl_free (c : Script)
    (ht : '\n' ∉ renderOptStr c.Title) :
    ∀ l ∈ generateScriptMetadataLines c, '\n' ∉ l := by
  intro l hl hmem
  rcases generateClient_line_cases c l hl with h | h | ⟨p, hp, h⟩
  · rw [h] at hmem
    rcases List.mem_append.mp hmem with hL | hR
    · exact absurd hL (by decide)
    rcases List.mem_cons.mp hR with hc | hR
    · exact absurd hc (by decide)
    rcases List.mem_cons.mp hR with hc | hR
    · exact absurd hc (by decide)
    · exact absurd hR (newline_not_mem_renderOptInt c.Id)
  · rw [h] at hmem
    rcases List.mem_append.mp hmem with hL | hR
    · exact absurd hL (by decide)
    rcases List.mem_cons.mp hR with hc | hR
    · exact absurd hc (by decide)
    rcases List.mem_cons.mp hR with hc | hR
    · exact absurd hc (by decide)
    · exact absurd hR ht
  · rw [h] at hmem
    rcases List.mem_append.mp hmem with hL | hR
    · rcases List.mem_append.mp hL with hL1 | hL2
      · exact absurd hL1 (by decide)
      · have hk := clientFlagPairs_key_mem c p hp
        exact absurd hL2 (clientFlagKeys_facts p.1 hk).2.2
    rcases List.mem_cons.mp hR with hc | hR
    · exact absurd hc (by decide)
    rcases List.mem_cons.mp hR with hc | hR
    · exact absurd hc (by decide)
    · exact absurd hR (newline_not_mem_renderBool p.2)

theorem generateClient_lines_start (c : Script) :
    ∀ l ∈ generateScriptMetadataLines c,
      strStartsWith (trimStr l) plsMark = true := by
  intro l hl
  rcases generateClient_line_cases c l hl with h | h | ⟨_, _, h⟩
  · rw [h]; exact trim_headerline_starts _ _
  · rw [h]; exact trim_headerline_starts _ _
  · rw [h]; exact trim_headerline_starts _ _

theorem generateServer_fold (r : ServerScript) :
    (generateServerScriptMetadataLines r).foldl lineUpd [] =
      ((serverHooks r).filter (fun q => q.2)).foldl
        (fun m2 p => assocSet m2 p.1 (JsValue.bool true))
        (([strL "// @pleasanter-id: " ++ renderOptInt r.Id,
           strL "// @pleasanter-title: " ++ renderOptStr r.Title,
           strL "// @pleasanter-name: " ++ renderOptStr r.Name] : List Str).foldl
          lineUpd []) := by
  unfold generateServerScriptMetadataLines
  rw [List.foldl_append, lineUpd_flag_fold]
  intro p hp
  have hk := serverHooks_key_mem r p (List.mem_of_mem_filter hp)
  exact ⟨(serverHookKeys_facts p.1 hk).1, (serverHookKeys_facts p.1 hk).2.1⟩

theorem boolFold_true_congr (ps : List (Str × Bool)) (m : Meta)
    (hall : ∀ p ∈ ps, p.2 = true) :
    ps.foldl (fun m2 p => assocSet m2 p.1 (JsValue.bool true)) m =
      ps.foldl (fun m2 p => assocSet m2 p.1 (JsValue.bool p.2)) m := by
  induction ps generalizing m with
  | nil => rfl
  | cons q rest ih =>
    rw [List.foldl_cons, List.foldl_cons, hall q (List.mem_cons_self _ _)]
    exact ih _ (fun p hp => hall p (List.mem_cons_of_mem _ hp))

theorem server_meta_get (r : ServerScript) (p : Str × Bool) (hp : p ∈ serverHooks r) :
    assocGet ((generateServerScriptMetadataLines r).foldl lineUpd []) p.1 =
      if p.2 then some (JsValue.bool true) else none := by
  have hkeymem := serverHooks_key_mem r p hp
  have hkeysnodup : ((serverHooks r).map (fun q => q.1)).Nodup := by
    have he : (serverHooks r).map (fun q => q.1) = serverHookKeys := rfl
    rw [he]
    exact serverHookKeys_nodup
  rw [generateServer_fold]
  rcases hb : p.2 with _ | _
  · have hnm : p.1 ∉ ((serverHooks r).filter (fun q => q.2)).map (fun q => q.1) := by
      intro hc
      rcases List.mem_map.mp hc with ⟨q, hqf, hq1⟩
      have hqs := List.mem_of_mem_filter hqf
      have hq2 : q.2 = true := (List.mem_filter.mp hqf).2
      have hpq : q = p := List.inj_on_of_nodup_map hkeysnodup hqs hp hq1
      rw [hpq, hb] at hq2
      exact Bool.noConfusion hq2
    have hget : assocGet (((serverHooks r).filter (fun q => q.2)).foldl
        (fun m2 p => assocSet m2 p.1 (JsValue.bool true))
        (([strL "// @pleasanter-id: " ++ renderOptInt r.Id,
           strL "// @pleasanter-title: " ++ renderOptStr r.Title,
           strL "// @pleasanter-name: " ++ renderOptStr r.Name] : List Str).foldl
          lineUpd [])) p.1 = none := by
      rw [boolFold_true_congr _ _
        (fun q hq => (List.mem_filter.mp hq).2),
        assocGet_boolFold_not_mem _ _ _ hnm]
      exact assocGet_server_prelude_none r p.1
        (serverHookKeys_facts p.1 hkeymem).2.2.2.1
        (serverHookKeys_facts p.1 hkeymem).2.2.2.2.1
        (serverHookKeys_facts p.1 hkeymem).2.2.2.2.2
    exact hget
  · have hmemf : p ∈ (serverHooks r).filter (fun q => q.2) :=
      List.mem_filter.mpr ⟨hp, hb⟩
    have hmemf2 : (p.1, true) ∈ (serverHooks r).filter (fun q => q.2) := by
      rw [← hb]
      exact hmemf
    have hnodupf : (((serverHooks r).filter (fun q => q.2)).map (fun q => q.1)).Nodup :=
      hkeysnodup.sublist ((List.filter_sublist _).map _)
    rw [boolFold_true_congr _ _ (fun q hq => (List.mem_filter.mp hq).2)]
    exact assocGet_boolFold_mem _ _ p.1 true hmemf2 hnodupf

theorem client_meta_get (c : Script) (p : Str × Bool) (hp : p ∈ clientFlagPairs c) :
    assocGet ((generateScriptMetadataLines c).foldl lineUpd []) p.1 =
      some (JsValue.bool p.2) := by
  have hlines : generateScriptMetadataLines c =
      ([strL "// @pleasanter-id: " ++ renderOptInt c.Id,
        strL "// @pleasanter-title: " ++ renderOptStr c.Title] : List Str) ++
      (clientFlagPairs c).map
        (fun q => plsMark ++ q.1 ++ ':' :: ' ' :: renderBool q.2) := rfl
  have hnodup : ((clientFlagPairs c).map (fun q => q.1)).Nodup := by
    have he : (clientFlagPairs c).map (fun q => q.1) =
        [strL "all", strL "new", strL "edit", strL "index", strL "disabled"] := rfl
    rw [he]
    decide
  have hmem2 : (p.1, p.2) ∈ clientFlagPairs c := hp
  rw [hlines, List.foldl_append, lineUpd_boolpair_fold]
  · exact assocGet_boolFold_mem _ _ p.1 p.2 hmem2 hnodup
  · intro q hq
    have hk := clientFlagPairs_key_mem c q hq
    exact ⟨(clientFlagKeys_facts q.1 hk).1, (clientFlagKeys_facts q.1 hk).2.1⟩

/-- **C1** (amended).  Metadata round-trip: for a server script record whose
body is trim-stable and whose first body line is not a `// @pleasanter-`
header, and whose rendered title and name contain no newline, parsing the
written file text recovers every one of the sixteen emitted hook flags
(`true` flags read back as `true`, `false` flags are absent from the parsed
metadata) and the body verbatim; a client script record likewise round-trips
all five flag values and its body.  The unconditional claim fails: `parseFile`
trims the joined body, so a trim-unstable body (for instance a single space)
is not recovered. -/
theorem metadata_roundtrip_amended (r : ServerScript) (c : Script) (b bc : Str)
    (hrb : r.Body = some b) (hcb : c.Body = some bc)
    (hbt : trimStr b = b) (hbct : trimStr bc = bc)
    (hbh : strStartsWith (trimStr (b.takeWhile (fun x => x ≠ '\n'))) plsMark = false)
    (hbch : strStartsWith (trimStr (bc.takeWhile (fun x => x ≠ '\n'))) plsMark = false)
    (htitle : '\n' ∉ renderOptStr r.Title) (hname : '\n' ∉ renderOptStr r.Name)
    (hctitle : '\n' ∉ renderOptStr c.Title) :
    (∀ p ∈ serverHooks r,
      assocGet (parseFile (writeServerScriptFileContent r)).1 p.1 =
        if p.2 then some (JsValue.bool true) else none) ∧
    (parseFile (writeServerScriptFileContent r)).2 = b ∧
    (∀ p ∈ clientFlagPairs c,
      assocGet (parseFile (writeScriptFileContent c)).1 p.1 =
        some (JsValue.bool p.2)) ∧
    (parseFile (writeScriptFileContent c)).2 = bc := by
  have hcs : writeServerScriptFileContent r =
      intercalateC '\n' (generateServerScriptMetadataLines r) ++ strL "\n\n" ++ b := by
    unfold writeServerScriptFileContent generateServerScriptMetadata
    rw [hrb]
    rfl
  have hcc : writeScriptFileContent c =
      intercalateC '\n' (generateScriptMetadataLines c) ++ strL "\n\n" ++ bc := by
    unfold writeScriptFileContent generateScriptMetadata
    rw [hcb]
    rfl
  have hps : parseFile (writeServerScriptFileContent r) =
      ((generateServerScriptMetadataLines r).foldl lineUpd [], b) := by
    rw [hcs]
    exact parseFile_content_split _ b (List.cons_ne_nil _ _)
      (generateServer_lines_nl_free r htitle hname)
      (generateServer_lines_start r) hbt hbh
  have hpc : parseFile (writeScriptFileContent c) =
      ((generateScriptMetadataLines c).foldl lineUpd [], bc) := by
    rw [hcc]
    exact parseFile_content_split _ bc (List.cons_ne_nil _ _)
      (generateClient_lines_nl_free c hctitle)
      (generateClient_lines_start c) hbct hbch
  refine ⟨?_, ?_, ?_, ?_⟩
  · intro p hp
    rw [hps]
    exact server_meta_get r p hp
  · rw [hps]
  · intro p hp
    rw [hpc]
    exact client_meta_get c p hp
  · rw [hpc]

/-- Concrete instantiation of the amended round-trip: a server script with the
`shared` hook set and body `return 1;`, and a client script with the `new`
flag set and body `alert(1);`. -/
theorem metadata_roundtrip_amended_witness :
    (∀ p ∈ serverHooks rtServer,
      assocGet (parseFile (writeServerScriptFileContent rtServer)).1 p.1 =
        if p.2 then some (JsValue.bool true) else none) ∧
    (parseFile (writeServerScriptFileContent rtServer)).2 = strL "return 1;" ∧
    (∀ p ∈ clientFlagPairs rtClient,
      assocGet (parseFile (writeScriptFileContent rtClient)).1 p.1 =
        some (JsValue.bool p.2)) ∧
    (parseFile (writeScriptFileContent rtClient)).2 = strL "alert(1);" :=
  metadata_roundtrip_amended rtServer rtClient
    (strL "return 1;") (strL "alert(1);") rfl rfl (by decide) (by decide)
    (by decide) (by decide) (by decide) (by decide) (by decide)

/-- **C1** counterexample to the unamended claim: a server script whose flags
are all drawn from the known flag set but whose body is a single space does
not round-trip — `parseFile` trims the joined body lines, so the decoded body
is empty rather than the original `" "`. -/
theorem metadata_roundtrip_counterexample :
    (parseFile (writeServerScriptFileContent rtBadServer)).2 ≠ strL " " := by decide
